import Mathlib

/-!
# Project Cauldron — verification of the dispatcher/dashboard core

A shallow embedding of `src/m1_dispatcher.py` and `src/m4_dashboard.py`.

Python/JSON values are embedded as the inductive `Cauldron.Json`; numbers are
exact decimals (`float m e` denotes `m / 10^e`, `int n` a Python int), which
models CPython floats up to binary rounding.  Python `round` (banker's
rounding on binary floats) is modelled as round-half-up on rationals; the
tie-breaking difference is below the granularity of every property proved
here.  Fallible Python code is embedded with `Except Unit` (an uncaught
exception) and `Option`.
-/

namespace Cauldron

/-- A JSON value as produced by `json.loads` / held in Python dicts.
`int` and `float` are kept apart because `json.dumps` prints them
differently (`3` vs `3.0`); a `float m e` denotes the decimal `m / 10^e`.
Objects are association lists in insertion order, as Python dicts are. -/
inductive Json where
  | null : Json
  | bool (tv : Bool) : Json
  | int (whole : Int) : Json
  | float (mant : Int) (frac : Nat) : Json
  | str (text : String) : Json
  | arr (vals : List Json) : Json
  | obj (entries : List (String × Json)) : Json


/-- The rational denoted by the decimal representation `m / 10^e`. -/
def decVal (m : Int) (e : Nat) : ℚ := (m : ℚ) / (10 : ℚ) ^ e

/-- Python `d.get(k, default)` on a dict: first binding wins (a Python dict
holds each key once, at its first-insertion position). -/
def getD (kvs : List (String × Json)) (k : String) (d : Json) : Json :=
  match kvs.find? (fun kv => kv.1 == k) with
  | some kv => kv.2
  | none => d

/-- Python `d[k] = v` on a dict: replace in place if the key exists
(keeping its position), otherwise append at the end. -/
def setK : List (String × Json) → String → Json → List (String × Json)
  | [], k, v => [(k, v)]
  | kv :: rest, k, v => if kv.1 == k then (k, v) :: rest else kv :: setK rest k v

/-- Field access `j[k]` on an object value, `none` elsewhere (used to state
properties of packets). -/
def getField? : Json → String → Option Json
  | .obj kvs, k => (kvs.find? (fun kv => kv.1 == k)).map (fun kv => kv.2)
  | _, _ => none

/-- Characters `0`-`9`. -/
def isDig (c : Char) : Bool := 48 ≤ c.toNat && c.toNat ≤ 57

/-- Numeric value of a digit character. -/
def digVal (c : Char) : Nat := c.toNat - 48

/-- Read a maximal run of decimal digits, returning the accumulated value,
the number of digits consumed, and the rest of the input. -/
def readDigits : List Char → Nat → Nat × Nat × List Char
  | c :: cs, acc =>
      if isDig c then
        let r := readDigits cs (acc * 10 + digVal c)
        (r.1, r.2.1 + 1, r.2.2)
      else (acc, 0, c :: cs)
  | [], acc => (acc, 0, [])

/-- Python `float(s)` on a string, restricted to plain decimal literals
(optional surrounding blanks, optional sign, digits with an optional
fractional part).  Exponent, `inf` and `nan` forms are not modelled.
Returns the decimal representation `(mantissa, fracDigits)`. -/
def stripSign : List Char → Bool × List Char
  | '-' :: r => (true, r)
  | '+' :: r => (false, r)
  | cs => (false, cs)

def strFloat? (s : String) : Option (Int × Nat) :=
  let cs := s.toList.dropWhile (fun c => c == ' ')
  let sign := (stripSign cs).1
  let cs1 := (stripSign cs).2
  match cs1 with
  | c :: _ =>
      if isDig c then
        let (ip, _, cs2) := readDigits cs1 0
        match cs2 with
        | '.' :: cs3 =>
            let (fp, fn, cs4) := readDigits cs3 0
            if (cs4.dropWhile (fun c => c == ' ')).isEmpty then
              some ((if sign then -(ip * 10 ^ fn + fp : Int) else (ip * 10 ^ fn + fp : Int)), fn)
            else none
        | _ =>
            if (cs2.dropWhile (fun c => c == ' ')).isEmpty then
              some ((if sign then -(ip : Int) else (ip : Int)), 0)
            else none
      else none
  | [] => none

/-- Python `float(x)`: identity on floats, exact on ints and bools, decimal
literals on strings; `None`, lists and dicts raise (`none` here).
Returns the decimal representation `(mantissa, fracDigits)`. -/
def pyFloat? : Json → Option (Int × Nat)
  | .bool b => some (if b then (1, 0) else (0, 0))
  | .int n => some (n, 0)
  | .float m e => some (m, e)
  | .str s => strFloat? s
  | _ => none

/-- The rational a Python numeric value (bool, int or float) denotes; `none`
when Python `+` on a float and this value would raise `TypeError`. -/
def pyNum? : Json → Option ℚ
  | .bool b => some (if b then 1 else 0)
  | .int n => some (n : ℚ)
  | .float m e => some (decVal m e)
  | _ => none

/-! ## NodeMonitor (src/m1_dispatcher.py lines 111-152) -/

/-- Per-node monitor state: `last_update`, `last_data` (the cached enriched
record, always a dict when present) and the bounded latency history. -/
structure NodeState where
  last_update : ℚ
  last_data : Option (List (String × Json))
  latency_samples : List ℚ


/-- The monitor state at construction (lines 114-119). -/
def initNodeState : NodeState := ⟨0, none, []⟩

/-- The observable outcome of one poll of a node's backing document:
absent; `stat()` raising `IOError`; `read_text()` raising `IOError` after a
successful `stat()`; content that `json.loads` rejects (malformed, empty,
truncated); or content parsing to the value `doc`. -/
inductive DocRead where
  | absent
  | statErr
  | readErr (mtime : ℚ)
  | badJson (mtime : ℚ)
  | okJson (mtime : ℚ) (doc : Json)


/-- The wall-clock inputs one node read consumes: the document outcome, the
value of `time.time()` during the read, and the `strftime` text used if this
node fires a strike this cycle. -/
structure NodeInput where
  read : DocRead
  now : ℚ
  strikeTime : String


/-- Append one latency sample, popping the oldest when the history would
exceed 20 entries (lines 132-134). -/
def pushSample (samples : List ℚ) (x : ℚ) : List ℚ :=
  let s := samples ++ [x]
  if s.length > 20 then s.tail else s

/-- `round(x, 1)` on a float: the decimal `float` with one fractional digit
(`round` is Mathlib's round-half-up on rationals). -/
def round1 (x : ℚ) : Json := .float (round (10 * x)) 1

/-- `_calc_jitter` (lines 146-152): population standard deviation of the
latency history, rounded to two decimals; `0.0` below two samples.
`round(sqrt v * 100)` is computed exactly on rationals via
`⌊√v·100 + 1/2⌋ = (⌊√(40000·v)⌋ + 1) / 2` and `⌊√w⌋ = Nat.sqrt ⌊w⌋`. -/
def calcJitter (samples : List ℚ) : Json :=
  if samples.length < 2 then .float 0 1
  else
    let mean := samples.sum / (samples.length : ℚ)
    let variance := (samples.map (fun x => (x - mean) ^ 2)).sum / (samples.length : ℚ)
    .float ((Nat.sqrt (40000 * variance).floor.toNat + 1) / 2 : Nat) 2

/-- `NodeMonitor.read` (lines 121-144).  Returns the value `read` returns
(`none` = Python `None`) together with the updated monitor state; the
`.error` result is the uncaught `TypeError` raised at line 137 when the
document parses to a non-object (only `JSONDecodeError` and `IOError` are
caught).  The latency sample is pushed at line 132, before `json.loads`
runs at line 136, so parse failures still grow the history. -/
def NodeMonitor.read (st : NodeState) (inp : NodeInput) :
    Except Unit (Option (List (String × Json))) × NodeState :=
  match inp.read with
  | .absent => (.ok none, st)
  | .statErr => (.ok st.last_data, st)
  | .readErr mtime =>
      let lat := (inp.now - mtime) * 1000
      (.ok st.last_data, { st with latency_samples := pushSample st.latency_samples lat })
  | .badJson mtime =>
      let lat := (inp.now - mtime) * 1000
      (.ok st.last_data, { st with latency_samples := pushSample st.latency_samples lat })
  | .okJson mtime doc =>
      let lat := (inp.now - mtime) * 1000
      let samples := pushSample st.latency_samples lat
      match doc with
      | .obj kvs =>
          let data := setK (setK kvs "latency_ms" (round1 lat)) "latency_jitter"
            (calcJitter samples)
          (.ok (some data),
           { last_update := inp.now, last_data := some data, latency_samples := samples })
      | _ => (.error (), { st with latency_samples := samples })

/-! ## Dispatcher (src/m1_dispatcher.py lines 159-224) -/

/-- `WAR_CHEST_GOAL` (line 43). -/
def WAR_CHEST_GOAL : ℚ := 100000

/-- Dispatcher state: the monitors in configured order, the rolling strike
log (a list of event dicts) and the process start time. -/
structure Dispatcher where
  nodes : List (String × NodeState)
  strike_log : List Json
  start_time : ℚ


/-- Append one strike event, popping the oldest when the log would exceed 50
entries (lines 195-202). -/
def pushStrike (log : List Json) (ev : Json) : List Json :=
  let l := log ++ [ev]
  if l.length > 50 then l.tail else l

/-- The strike event dict built at lines 195-200. -/
def strikeEvent (t nodeId : String) (pnl : Int × Nat) (action : Json) : Json :=
  .obj [("time", .str t), ("node", .str nodeId), ("pnl", .float pnl.1 pnl.2),
        ("action", action)]

/-- The per-node summary dict built at lines 181-187. -/
def nodeEntry (data : List (String × Json)) : Json :=
  .obj [("status", getD data "status" (.str "UNKNOWN")),
        ("last_action", getD data "last_action" (.str "—")),
        ("current_pnl", getD data "current_pnl" (.int 0)),
        ("latency_ms", getD data "latency_ms" (.int 0)),
        ("latency_jitter", getD data "latency_jitter" (.int 0))]

/-- The running accumulator of the loop at lines 178-204. -/
structure AggAcc where
  node_data : List (String × Json)
  war_chest : ℚ
  total_latency : ℚ
  active_nodes : Nat
  strike_log : List Json
  cells : List (String × NodeState)


/-- One iteration of the aggregation loop (lines 178-204) for one node.
`.error` is an uncaught exception escaping `aggregate`: a `TypeError` from
`read`, a `ValueError`/`TypeError` from `float(...)` at line 188/193, or a
`TypeError` from `+` at line 189. -/
def aggStep (acc : AggAcc) (cell : String × NodeState) (inp : NodeInput) :
    Except Unit AggAcc :=
  let r := NodeMonitor.read cell.2 inp
  match r.1 with
  | .error e => .error e
  | .ok none =>
      .ok { acc with
        node_data := acc.node_data ++ [(cell.1, .obj [("status", .str "OFFLINE")])],
        cells := acc.cells ++ [(cell.1, r.2)] }
  | .ok (some data) =>
      match pyFloat? (getD data "current_pnl" (.int 0)),
            pyNum? (getD data "latency_ms" (.int 0)) with
      | some pnl, some lat =>
          let pnlV := decVal pnl.1 pnl.2
          .ok { node_data := acc.node_data ++ [(cell.1, nodeEntry data)],
                war_chest := acc.war_chest + pnlV,
                total_latency := acc.total_latency + lat,
                active_nodes := acc.active_nodes + 1,
                strike_log :=
                  if 1000 < |pnlV| then
                    pushStrike acc.strike_log
                      (strikeEvent inp.strikeTime cell.1 pnl (getD data "last_action" (.str "—")))
                  else acc.strike_log,
                cells := acc.cells ++ [(cell.1, r.2)] }
      | _, _ => .error ()

/-- The aggregation loop over all nodes in configured order. -/
def aggLoop : AggAcc → List ((String × NodeState) × NodeInput) → Except Unit AggAcc
  | acc, [] => .ok acc
  | acc, (cell, inp) :: rest =>
      match aggStep acc cell inp with
      | .error e => .error e
      | .ok acc' => aggLoop acc' rest

/-- Python `log[-10:]`: the last (at most) ten entries, as a fresh list. -/
def lastTen (log : List Json) : List Json := log.drop (log.length - 10)

/-- The return value of `aggregate` (lines 206-224): `progress` is the
clamped percentage of line 207, `avg_latency` the mean of line 208 (a Python
int `0` when no node is active, since `round(0, 1)` is the int `0`). -/
def buildPacket (d : Dispatcher) (acc : AggAcc) (timestamp : String) (nowTs : ℚ)
    (health : Json) : Json :=
  .obj [
    ("timestamp", .str timestamp),
    ("uptime_sec", .float (round (10 * (nowTs - d.start_time))) 1),
    ("war_chest", .float (round (100 * acc.war_chest)) 2),
    ("war_chest_goal", .float 100000 0),
    ("progress_pct", .float (round (100 * min 100 (max 0 (acc.war_chest / WAR_CHEST_GOAL * 100)))) 2),
    ("nodes", .obj acc.node_data),
    ("active_nodes", .int (acc.active_nodes : Int)),
    ("avg_latency_ms",
      if acc.active_nodes > 0 then
        .float (round (10 * (acc.total_latency / (acc.active_nodes : ℚ)))) 1
      else .int 0),
    ("system", health),
    ("strike_log", .arr (lastTen acc.strike_log))]

/-- `Dispatcher.aggregate` (lines 171-224).  `ins` supplies each node's
document outcome and clock readings for this cycle, `timestamp` the
`datetime.now().isoformat()` text, `nowTs` the `time.time()` value at line
215, and `health` the dict `get_system_health()` returned (that function
catches every exception itself, line 97, so it is an opaque input here).
Returns the packet dict and the dispatcher state after the cycle. -/
def Dispatcher.aggregate (d : Dispatcher) (ins : List NodeInput)
    (timestamp : String) (nowTs : ℚ) (health : Json) :
    Except Unit (Json × Dispatcher) :=
  match aggLoop ⟨[], 0, 0, 0, d.strike_log, []⟩ (d.nodes.zip ins) with
  | .error e => .error e
  | .ok acc =>
      .ok (buildPacket d acc timestamp nowTs health,
       { nodes := acc.cells, strike_log := acc.strike_log, start_time := d.start_time })

/-! ## Wire encoding: `json.dumps` (m1 line 229) and `json.loads` (m4 line 63)

CPython's `json.dumps` with default options separates array items and object
members with a comma and a blank, keys and values with a colon and a blank,
and escapes every character outside printable ASCII (`ensure_ascii=True`),
using lowercase hex and UTF-16 surrogate pairs beyond the BMP.  Floats print
as their decimal value (shortest round-trip repr; exact here since the model's
floats are exact decimals), ints as plain decimal integers.  `json.loads`
accepts standard JSON; the model's parser covers the fragment `dumps` emits
(no exponent literals, no lone-surrogate escapes), failing elsewhere. -/

/-- Opening brace character (written via its code point). -/
def lbrace : Char := Char.ofNat 123

/-- Closing brace character (written via its code point). -/
def rbrace : Char := Char.ofNat 125

/-- The character of one decimal digit. -/
def digitChar : Nat → Char
  | 0 => '0' | 1 => '1' | 2 => '2' | 3 => '3' | 4 => '4'
  | 5 => '5' | 6 => '6' | 7 => '7' | 8 => '8' | _ => '9'

/-- Lowercase hex digit for `n < 16`. -/
def hexDig (n : Nat) : Char :=
  if n < 10 then digitChar n
  else match n with
  | 10 => 'a' | 11 => 'b' | 12 => 'c' | 13 => 'd' | 14 => 'e' | _ => 'f'

/-- The four lowercase hex digits of `n < 0x10000`. -/
def hex4 (n : Nat) : List Char :=
  [hexDig (n / 4096 % 16), hexDig (n / 256 % 16), hexDig (n / 16 % 16), hexDig (n % 16)]

/-- `json.dumps` escaping of one character (`ensure_ascii` default): short
escapes for quote, backslash and the C0 controls that have them, `\uXXXX`
for other characters outside `0x20`-`0x7e`, surrogate pairs beyond `0xFFFF`. -/
def escChar (c : Char) : List Char :=
  if c == '"' then ['\\', '"']
  else if c == '\\' then ['\\', '\\']
  else if c.toNat == 8 then ['\\', 'b']
  else if c.toNat == 9 then ['\\', 't']
  else if c.toNat == 10 then ['\\', 'n']
  else if c.toNat == 12 then ['\\', 'f']
  else if c.toNat == 13 then ['\\', 'r']
  else if c.toNat < 32 || 127 ≤ c.toNat then
    if c.toNat < 65536 then '\\' :: 'u' :: hex4 c.toNat
    else
      '\\' :: 'u' :: hex4 (55296 + (c.toNat - 65536) / 1024) ++
        '\\' :: 'u' :: hex4 (56320 + (c.toNat - 65536) % 1024)
  else [c]

/-- Escape a whole string, character by character. -/
def escStr : List Char → List Char
  | [] => []
  | c :: cs => escChar c ++ escStr cs

/-- The decimal digits of `n`, written as characters with the most
significant digit leading. -/
def natChars (n : Nat) : List Char :=
  if h : n < 10 then [digitChar n]
  else natChars (n / 10) ++ [digitChar (n % 10)]
termination_by n
decreasing_by exact Nat.div_lt_self (by omega) (by omega)

/-- The decimal characters of an integer: optional minus sign, then digits. -/
def intChars (z : Int) : List Char :=
  (if z < 0 then ['-'] else List.nil) ++ natChars z.natAbs

/-- Normal form of a decimal float representation: at least one fractional
digit, and no trailing zero unless it is the only fractional digit.  This is
the form CPython's float repr prints (`2.50` never appears, `5.0` does). -/
def normF : Int → Nat → Int × Nat
  | m, 0 => (m * 10, 1)
  | m, 1 => (m, 1)
  | m, e + 2 => if m % 10 == 0 then normF (m / 10) (e + 1) else (m, e + 2)

/-- Zero-padded digit characters: `n` printed with at least `k` digits. -/
def padChars (k n : Nat) : List Char :=
  List.replicate (k - (natChars n).length) '0' ++ natChars n

/-- CPython's repr of the float `m / 10^e`: sign, integer part, a point,
then the (normalised) fractional digits. -/
def floatChars (m : Int) (e : Nat) : List Char :=
  (if (normF m e).1 < 0 then ['-'] else []) ++
    natChars ((normF m e).1.natAbs / 10 ^ (normF m e).2) ++
    '.' :: padChars (normF m e).2 ((normF m e).1.natAbs % 10 ^ (normF m e).2)

mutual
/-- `json.dumps` of one value, as a character list. -/
def dumpV : Json → List Char
  | .null => "null".data
  | .bool true => "true".data
  | .bool false => "false".data
  | .int n => intChars n
  | .float m e => floatChars m e
  | .str s => '"' :: (escStr s.data ++ ['"'])
  | .arr es => '[' :: (dumpA es ++ [']'])
  | .obj ms => lbrace :: (dumpO ms ++ [rbrace])
/-- Array items, separated by Python's default `", "`. -/
def dumpA : List Json → List Char
  | [] => []
  | [x] => dumpV x
  | x :: y :: r => dumpV x ++ ',' :: ' ' :: dumpA (y :: r)
/-- Object members, `"key": value`, separated by `", "`. -/
def dumpO : List (String × Json) → List Char
  | List.nil => List.nil
  | [(k, v)] => '"' :: (escStr k.data ++ '"' :: ':' :: ' ' :: dumpV v)
  | (k, v) :: kv :: r =>
      '"' :: (escStr k.data ++ '"' :: ':' :: ' ' :: dumpV v) ++
        ',' :: ' ' :: dumpO (kv :: r)
end

/-- `json.dumps(packet)` (m1 line 229). -/
def dumps (j : Json) : String := String.mk (dumpV j)

/-- JSON whitespace. -/
def wsChar (u : Char) : Bool := u == ' ' || u == '\t' || u == '\n' || u == '\r'

/-- Short escape decoding: `\"`, `\\`, `\/`, `\b`, `\f`, `\n`, `\r`, `\t`. -/
def escShort (e : Char) : Option Char :=
  if e == '"' then some '"'
  else if e == '\\' then some '\\'
  else if e == '/' then some '/'
  else if e == 'b' then some (Char.ofNat 8)
  else if e == 'f' then some (Char.ofNat 12)
  else if e == 'n' then some '\n'
  else if e == 'r' then some '\r'
  else if e == 't' then some '\t'
  else none

/-- Value of one hex digit character (either case). -/
def hexVal? (c : Char) : Option Nat :=
  if isDig c then some (digVal c)
  else if 97 ≤ c.toNat && c.toNat ≤ 102 then some (c.toNat - 87)
  else if 65 ≤ c.toNat && c.toNat ≤ 70 then some (c.toNat - 55)
  else none

/-- Value of a four-hex-digit escape body. -/
def hexQuad? (h1 h2 h3 h4 : Char) : Option Nat := do
  let v1 ← hexVal? h1
  let v2 ← hexVal? h2
  let v3 ← hexVal? h3
  let v4 ← hexVal? h4
  pure (((v1 * 16 + v2) * 16 + v3) * 16 + v4)

/-- Parse a JSON string body after the opening quote: plain characters, short
escapes, `\uXXXX` escapes, surrogate pairs recombined into one code point.
Raw control characters are rejected (`json.loads` strict mode), and so are
lone surrogate escapes (a Lean `Char` cannot hold one). -/
def parseStr (acc : List Char) : List Char → Option (String × List Char)
  | '"' :: cs => some (String.mk acc.reverse, cs)
  | '\\' :: 'u' :: a :: b :: c :: d :: cs =>
      match hexQuad? a b c d with
      | some n =>
          if 55296 ≤ n && n ≤ 56319 then
            match cs with
            | '\\' :: 'u' :: a2 :: b2 :: c2 :: d2 :: cs2 =>
                match hexQuad? a2 b2 c2 d2 with
                | some n2 =>
                    if 56320 ≤ n2 && n2 ≤ 57343 then
                      parseStr
                        (Char.ofNat (65536 + (n - 55296) * 1024 + (n2 - 56320)) :: acc) cs2
                    else none
                | none => none
            | _ => none
          else if 56320 ≤ n && n ≤ 57343 then none
          else parseStr (Char.ofNat n :: acc) cs
      | none => none
  | '\\' :: e :: cs =>
      match escShort e with
      | some ch => parseStr (ch :: acc) cs
      | none => none
  | c :: cs => if c.toNat < 32 then none else parseStr (c :: acc) cs
  | [] => none

/-- Strip one leading minus sign. -/
def stripMinus : List Char → Bool × List Char
  | '-' :: r => (true, r)
  | cs => (false, cs)

/-- Parse a JSON number: optional minus, digits (no leading zero), optional
fractional part.  Exponent literals are not modelled (`dumps` never emits
them for the values at hand). -/
def parseNum (cs : List Char) : Option (Json × List Char) :=
  let sc := stripMinus cs
  match sc.2 with
  | c :: _ =>
      if isDig c then
        let (ip, n, cs2) := readDigits sc.2 0
        if 1 < n && c == '0' then none
        else
          match cs2 with
          | '.' :: cs3 =>
              let (fp, fn, cs4) := readDigits cs3 0
              if fn == 0 then none
              else some (.float ((if sc.1 then -1 else 1) * (ip * 10 ^ fn + fp : Int)) fn, cs4)
          | _ => some (.int ((if sc.1 then -1 else 1) * (ip : Int)), cs2)
      else none
  | [] => none

/-- Python dict construction from parsed members: later duplicate keys
overwrite earlier ones in place, as `json.loads` does. -/
def dictOf (ms : List (String × Json)) : List (String × Json) :=
  ms.foldl (fun d kv => setK d kv.1 kv.2) []

mutual
/-- Parse one JSON value (fuel-indexed; every recursive call spends one). -/
def parseV : Nat → List Char → Option (Json × List Char)
  | 0, _ => none
  | f + 1, cs =>
      match cs.dropWhile wsChar with
      | 'n' :: 'u' :: 'l' :: 'l' :: r0 => some (.null, r0)
      | 't' :: 'r' :: 'u' :: 'e' :: r0 => some (.bool true, r0)
      | 'f' :: 'a' :: 'l' :: 's' :: 'e' :: r0 => some (.bool false, r0)
      | '"' :: r => (parseStr [] r).map (fun p => (.str p.1, p.2))
      | '[' :: r =>
          (match r.dropWhile wsChar with
           | c :: r' =>
               if c == ']' then some (.arr [], r')
               else (parseItems f (c :: r')).map (fun p => (.arr p.1, p.2))
           | [] => none)
      | c :: r =>
          if c == lbrace then
            match r.dropWhile wsChar with
            | c' :: r' =>
                if c' == rbrace then some (.obj [], r')
                else (parseEntries f (c' :: r')).map (fun p => (.obj (dictOf p.1), p.2))
            | [] => none
          else if c == '-' || isDig c then parseNum (c :: r)
          else none
      | [] => none
/-- Parse one or more comma-separated array items up to the closing bracket. -/
def parseItems : Nat → List Char → Option (List Json × List Char)
  | 0, _ => none
  | f + 1, cs =>
      match parseV f cs with
      | some (v, r) =>
          (match r.dropWhile wsChar with
           | ',' :: r2 => (parseItems f r2).map (fun p => (v :: p.1, p.2))
           | ']' :: r2 => some ([v], r2)
           | _ => none)
      | none => none
/-- Parse one or more comma-separated `"key": value` members up to the
closing brace. -/
def parseEntries : Nat → List Char → Option (List (String × Json) × List Char)
  | 0, _ => none
  | f + 1, cs =>
      match cs.dropWhile wsChar with
      | '"' :: r =>
          (match parseStr [] r with
           | some (k, r1) =>
               (match r1.dropWhile wsChar with
                | ':' :: r2 =>
                    (match parseV f r2 with
                     | some (v, r3) =>
                         (match r3.dropWhile wsChar with
                          | ',' :: r4 => (parseEntries f r4).map (fun p => ((k, v) :: p.1, p.2))
                          | c :: r4 => if c == rbrace then some ([(k, v)], r4) else none
                          | [] => none)
                     | none => none)
                | _ => none)
           | none => none)
      | _ => none
end

/-- `json.loads(text)` (m4 line 63): parse one value, allow surrounding
whitespace, reject trailing input.  The fuel `2·|s| + 2` exceeds the parser's
spending on any input it accepts. -/
def loads (s : String) : Option Json :=
  match parseV (2 * s.data.length + 2) s.data with
  | some (j, r) => if (r.dropWhile wsChar).isEmpty then some j else none
  | none => none

mutual
/-- Fuel spent by `parseV` on a dumped value (an upper bound used to pick
`loads`' fuel). -/
def costV : Json → Nat
  | .arr es => 1 + costA es
  | .obj ms => 1 + costO ms
  | _ => 1
def costA : List Json → Nat
  | [] => 0
  | x :: xs => 1 + max (costV x) (costA xs)
def costO : List (String × Json) → Nat
  | List.nil => 0
  | (_, w) :: tl => 1 + max (costV w) (costO tl)
end

mutual
/-- Representation normalisation: the float form `loads (dumps j)` returns
(`normF` on every float; every other field untouched). -/
def normV : Json → Json
  | .float m e => .float (normF m e).1 (normF m e).2
  | .arr es => .arr (normA es)
  | .obj ms => .obj (normO ms)
  | x => x
def normA : List Json → List Json
  | [] => []
  | x :: xs => normV x :: normA xs
def normO : List (String × Json) → List (String × Json)
  | [] => []
  | (k, v) :: ms => (k, normV v) :: normO ms
end

/-- Keys of an object layer are pairwise distinct (Python dicts guarantee
this for every value `json.loads` ever produced). -/
def keysOK : List (String × Json) → Bool
  | [] => true
  | (k, _) :: r => r.all (fun kv => kv.1 != k) && keysOK r

mutual
/-- Well-formed value: every object layer has pairwise-distinct keys.  Every
value obtained from `json.loads`, and every dict Python code builds, is. -/
def wfV : Json → Bool
  | .arr es => wfA es
  | .obj ms => keysOK ms && wfO ms
  | _ => true
def wfA : List Json → Bool
  | [] => true
  | x :: xs => wfV x && wfA xs
def wfO : List (String × Json) → Bool
  | [] => true
  | (_, v) :: ms => wfV v && wfO ms
end

mutual
/-- Python `==` on values: numbers compare by numeric value (bools included),
dicts by key set and per-key value, lists pointwise. -/
def eqV : Json → Json → Bool
  | .null, .null => true
  | .str s, .str t => s == t
  | .arr xs, .arr ys => eqA xs ys
  | .obj xs, .obj ys => xs.length == ys.length && eqO xs ys
  | a, b =>
      match pyNum? a, pyNum? b with
      | some x, some y => x == y
      | _, _ => false
def eqA : List Json → List Json → Bool
  | [], [] => true
  | x :: xs, y :: ys => eqV x y && eqA xs ys
  | _, _ => false
def eqO : List (String × Json) → List (String × Json) → Bool
  | [], _ => true
  | (k, v) :: xs, ys => eqFind k v ys && eqO xs ys
def eqFind : String → Json → List (String × Json) → Bool
  | _, _, [] => false
  | k, v, (k2, v2) :: ys => if k2 == k then eqV v v2 else eqFind k v ys
end

/-! ## InfraredDashboard (src/m4_dashboard.py lines 47-366) -/

/-- `receive_packet` (m4 lines 59-67): `none` in is a tick with no pending
datagram (`BlockingIOError`); a pending datagram is its decoded text.  Any
decode or parse failure is swallowed into `None` by the blanket `except`. -/
def receive_packet (datagram : Option String) : Option Json :=
  match datagram with
  | none => none
  | some s => loads s

/-- Python truthiness, as tested by `if packet:` at m4 line 360. -/
def pyTruthy : Json → Bool
  | .null => false
  | .bool b => b
  | .int n => n != 0
  | .float m _ => m != 0
  | .str s => s.length != 0
  | .arr es => !es.isEmpty
  | .obj ms => !ms.isEmpty

/-- Dashboard state: the single current-snapshot slot. -/
structure Dashboard where
  last_packet : Option Json

/-- One iteration of the run loop's receive step (m4 lines 357-361): poll,
and replace `last_packet` only on a truthy received value.  Returns the new
state and what `receive_packet` returned. -/
def tick (db : Dashboard) (datagram : Option String) : Dashboard × Option Json :=
  match receive_packet datagram with
  | some p => (if pyTruthy p then ⟨some p⟩ else db, some p)
  | none => (db, none)

/-- Any number of consecutive loop iterations. -/
def ticks (db : Dashboard) : List (Option String) → Dashboard
  | [] => db
  | d :: ds => ticks (tick db d).1 ds

/-! ## Strike-log aliasing (m1 lines 195-202 and 223)

To state that the snapshot's `strike_log` list is a fresh copy rather than a
reference into the rolling log, Python list objects are given identity: a
`Store` holds every allocated list, and a reference is an index into it.
`self.strike_log` mutates in place (`append` / `pop(0)`); `self.strike_log[-10:]`
allocates a fresh list (Python slicing copies). -/

/-- The allocated list objects; an index is a Python object reference. -/
structure Store where
  cells : List (List Json)

/-- Dereference. -/
def Store.get (h : Store) (r : Nat) : List Json := h.cells.getD r []

/-- One aggregation cycle's strike-log effect: mutate the rolling-log cell in
place with this cycle's events (append, pop oldest past 50), then allocate a
fresh cell holding the last-ten slice for the returned snapshot.  Returns the
new store and the reference the snapshot's `strike_log` field holds. -/
def cycleStrikes (h : Store) (logRef : Nat) (evs : List Json) : Store × Nat :=
  let newLog := evs.foldl pushStrike (h.get logRef)
  (⟨(h.cells.set logRef newLog) ++ [lastTen newLog]⟩, (h.cells.set logRef newLog).length)

/-- Any number of later aggregation cycles against the same rolling log. -/
def runCycles (h : Store) (logRef : Nat) : List (List Json) → Store
  | [] => h
  | evs :: rest => runCycles (cycleStrikes h logRef evs).1 logRef rest

/-- A remainder past which a number literal cannot continue: either nothing
is left, or the next character is no digit and no decimal point (so `,`,
`]`, a closing brace and end of input all qualify). -/
def numBoundary : List Char → Bool
  | [] => true
  | c0 :: _ => !(isDig c0 || c0 == '.')

/-- Value of a digit string, most significant first. -/
def digitsVal (ds : List Char) : Nat := ds.foldl (fun v c => v * 10 + digVal c) 0

/-! ## Well-typedness of node records (for the no-raise boundary)

`aggregate` applies `float()` to a record's `current_pnl` and `+` to its
`latency_ms`; the following predicates mark the records and documents on
which those operations do not raise. -/

/-- A record whose `current_pnl` converts under `float()` and whose
`latency_ms` is numeric. -/
def wfData (data : List (String × Json)) : Prop :=
  (pyFloat? (getD data "current_pnl" (.int 0))).isSome ∧
  (pyNum? (getD data "latency_ms" (.int 0))).isSome

/-- A monitor whose cached record, if any, is well-typed. -/
def wfState (st : NodeState) : Prop := ∀ data, st.last_data = some data → wfData data

/-- A document outcome that cannot trip an uncaught exception: if the
content parses, it parses to an object whose `current_pnl` (or its absence,
defaulted to `0`) converts under `float()`. -/
def wfInput (inp : NodeInput) : Prop :=
  ∀ m doc, inp.read = .okJson m doc →
    ∃ kvs, doc = .obj kvs ∧ (pyFloat? (getD kvs "current_pnl" (.int 0))).isSome

/-! ## Dict lookup/update lemmas -/

theorem getD_nil (k : String) (d : Json) : getD [] k d = d := rfl

theorem getD_cons (x : String × Json) (xs : List (String × Json)) (k : String) (d : Json) :
    getD (x :: xs) k d = if x.1 == k then x.2 else getD xs k d := by
  by_cases h : x.1 == k <;> simp [getD, List.find?, h]

theorem getD_setK_self (kvs : List (String × Json)) (k : String) (v d : Json) :
    getD (setK kvs k v) k d = v := by
  induction kvs with
  | nil => simp [setK, getD, List.find?]
  | cons kv rest ih =>
      by_cases h : kv.1 == k
      · simp [setK, h, getD_cons]
      · simp [setK, h, getD_cons, ih]

theorem getD_setK_ne (kvs : List (String × Json)) (k k' : String) (v d : Json)
    (h : (k == k') = false) : getD (setK kvs k v) k' d = getD kvs k' d := by
  induction kvs with
  | nil => simp [setK, getD_cons, h, getD_nil]
  | cons kv rest ih =>
      by_cases hk : kv.1 == k
      · have : kv.1 = k := by simpa using hk
        simp [setK, hk, getD_cons, h, this]
      · simp [setK, hk, getD_cons, ih]

/-! ## Claim theorems -/

/-- **C4, counterexample.**  The claim says a parse failure with a cached
record leaves the per-node state, in particular the latency history, exactly
as it was.  On a node with cache `{"status": "RUNNING"}`, empty history, a
document with `mtime = 0` whose content fails to parse, read at `now = 1`:
the cached record is indeed returned, but the latency history has grown from
`[]` to `[1000]` (the sample is pushed at line 132, before `json.loads`). -/
theorem read_badJson_mutates_history :
    (NodeMonitor.read ⟨0, some [("status", Json.str "RUNNING")], []⟩
        ⟨.badJson 0, 1, "t"⟩).1 = .ok (some [("status", Json.str "RUNNING")])
    ∧ (NodeMonitor.read ⟨0, some [("status", Json.str "RUNNING")], []⟩
        ⟨.badJson 0, 1, "t"⟩).2.latency_samples = [1000]
    ∧ ([1000] : List ℚ) ≠ ([] : List ℚ) := by
  refine ⟨rfl, ?_, by simp⟩
  show pushSample [] ((1 - 0) * 1000) = [1000]
  norm_num [pushSample]

/-- **C4 (amended).**  On a JSON parse failure, or an I/O failure while
reading an existing document, `read` returns the cached record unchanged and
leaves `last_data`/`last_update` untouched (no OFFLINE), but the latency
sample — computed from the document's mtime before the parse is attempted —
is pushed onto the bounded history.  When `stat()` itself raises, the state
is fully unchanged. -/
theorem read_failure_returns_cache (st : NodeState) (inp : NodeInput) (mtime : ℚ) :
    (inp.read = .badJson mtime ∨ inp.read = .readErr mtime →
      NodeMonitor.read st inp =
        (.ok st.last_data,
         { st with latency_samples :=
             pushSample st.latency_samples ((inp.now - mtime) * 1000) }))
    ∧ (inp.read = .statErr → NodeMonitor.read st inp = (.ok st.last_data, st)) := by
  constructor
  · rintro (h | h) <;> simp [NodeMonitor.read, h]
  · intro h; simp [NodeMonitor.read, h]

theorem read_failure_returns_cache_witness :
    NodeMonitor.read ⟨0, some [("status", Json.str "RUNNING")], []⟩ ⟨.badJson 0, 1, "t"⟩ =
      (.ok (some [("status", Json.str "RUNNING")]),
       { (⟨0, some [("status", Json.str "RUNNING")], []⟩ : NodeState) with
           latency_samples := pushSample [] ((1 - 0) * 1000) }) :=
  (read_failure_returns_cache ⟨0, some [("status", Json.str "RUNNING")], []⟩
    ⟨.badJson 0, 1, "t"⟩ 0).1 (Or.inl rfl)

/-- **C5, counterexample.**  The claim says `latency_ms = max(0, (now -
mtime) * 1000)`, hence non-negative even for a future mtime.  Reading an
empty-object document with `mtime = 2` at `now = 1` records `latency_ms =
-1000.0`: line 131 has no `max(0, ·)` clamp. -/
theorem read_latency_negative :
    (NodeMonitor.read initNodeState ⟨.okJson 2 (.obj []), 1, "t"⟩).1 =
      .ok (some [("latency_ms", Json.float (-10000) 1),
                 ("latency_jitter", Json.float 0 1)])
    ∧ decVal (-10000) 1 < 0 := by
  constructor
  · simp [NodeMonitor.read, initNodeState, setK, round1, calcJitter, pushSample,
      show round (10 * ((1 - 2 : ℚ) * 1000)) = -10000 from by norm_num [round_eq],
      show round ((-10000 : ℚ)) = -10000 from by norm_num [round_eq]]
  · norm_num [decVal]

/-- **C5 (amended).**  For every successful read of an existing document,
the recorded `latency_ms` equals `round((now - mtime) * 1000, 1)` — with no
clamp, so it is negative whenever the document's mtime lies in the future of
the reading clock. -/
theorem read_latency_formula (st : NodeState) (inp : NodeInput) (mtime : ℚ)
    (kvs : List (String × Json)) (h : inp.read = .okJson mtime (.obj kvs)) :
    ∃ data, (NodeMonitor.read st inp).1 = .ok (some data) ∧
      getD data "latency_ms" (.int 0) = round1 ((inp.now - mtime) * 1000) := by
  refine ⟨setK (setK kvs "latency_ms" (round1 ((inp.now - mtime) * 1000)))
    "latency_jitter" (calcJitter (pushSample st.latency_samples ((inp.now - mtime) * 1000))),
    by simp [NodeMonitor.read, h], ?_⟩
  rw [getD_setK_ne _ _ _ _ _ (by decide), getD_setK_self]

theorem read_latency_formula_witness :
    ∃ data, (NodeMonitor.read initNodeState ⟨.okJson 2 (.obj []), 1, "t"⟩).1 =
      .ok (some data) ∧
      getD data "latency_ms" (.int 0) = round1 ((1 - 2) * 1000) :=
  read_latency_formula initNodeState ⟨.okJson 2 (.obj []), 1, "t"⟩ 2 [] rfl

/-- **C6 (confirmed).**  For a node whose read yields data this cycle, the
aggregation step appends exactly one strike event — carrying that node's
identifier, its `current_pnl` as converted by `float()`, and its
`last_action` — if and only if `|current_pnl| > 1000`; otherwise the log is
untouched.  The test depends only on this cycle's value, never on earlier
cycles, so it re-fires on every cycle the condition holds (level-triggered). -/
theorem aggStep_strike (acc : AggAcc) (id : String) (st : NodeState) (inp : NodeInput)
    (data : List (String × Json)) (st' : NodeState) (pnl : Int × Nat) (lat : ℚ)
    (hr : NodeMonitor.read st inp = (.ok (some data), st'))
    (hp : pyFloat? (getD data "current_pnl" (.int 0)) = some pnl)
    (hl : pyNum? (getD data "latency_ms" (.int 0)) = some lat) :
    aggStep acc (id, st) inp = .ok
      { node_data := acc.node_data ++ [(id, nodeEntry data)],
        war_chest := acc.war_chest + decVal pnl.1 pnl.2,
        total_latency := acc.total_latency + lat,
        active_nodes := acc.active_nodes + 1,
        strike_log :=
          if 1000 < |decVal pnl.1 pnl.2| then
            pushStrike acc.strike_log
              (strikeEvent inp.strikeTime id pnl (getD data "last_action" (.str "—")))
          else acc.strike_log,
        cells := acc.cells ++ [(id, st')] } := by
  simp [aggStep, hr, hp, hl]

theorem aggStep_strike_witness :
    aggStep ⟨[], 0, 0, 0, [], []⟩ ("node_1", initNodeState)
        ⟨.okJson 0 (.obj [("current_pnl", .int 1500)]), 0, "12:00:00"⟩ = .ok
      { node_data := [] ++ [("node_1", nodeEntry (setK (setK [("current_pnl", .int 1500)]
          "latency_ms" (round1 ((0 - 0) * 1000))) "latency_jitter"
          (calcJitter (pushSample [] ((0 - 0) * 1000)))))],
        war_chest := 0 + decVal 1500 0,
        total_latency := 0 + decVal (round (10 * ((0 - 0 : ℚ) * 1000))) 1,
        active_nodes := 0 + 1,
        strike_log :=
          if 1000 < |decVal 1500 0| then
            pushStrike []
              (strikeEvent "12:00:00" "node_1" (1500, 0)
                (getD (setK (setK [("current_pnl", .int 1500)]
                  "latency_ms" (round1 ((0 - 0) * 1000))) "latency_jitter"
                  (calcJitter (pushSample [] ((0 - 0) * 1000)))) "last_action" (.str "—")))
          else [],
        cells := [] ++ [("node_1", ⟨0, some (setK (setK [("current_pnl", .int 1500)]
          "latency_ms" (round1 ((0 - 0) * 1000))) "latency_jitter"
          (calcJitter (pushSample [] ((0 - 0) * 1000)))), pushSample [] ((0 - 0) * 1000)⟩)] } :=
  aggStep_strike _ "node_1" _ _ _ _ (1500, 0) (decVal (round (10 * ((0 - 0 : ℚ) * 1000))) 1) rfl rfl rfl

theorem getField?_obj (kvs : List (String × Json)) (x : String × Json) (k : String) :
    getField? (.obj (x :: kvs)) k =
      if x.1 == k then some x.2 else getField? (.obj kvs) k := by
  by_cases h : x.1 == k <;> simp [getField?, List.find?, h]

/-- **C2, counterexample.**  The claim says any node whose record carries
status OFFLINE contributes 0 to the sum and is excluded from the active
count.  A node whose own document reads `{"status": "OFFLINE",
"current_pnl": 5}` yields a record with status OFFLINE, yet the cycle counts
it: `active_nodes = 1` and `war_chest = 5.0` — the loop at line 180 tests
only whether `read` returned data, never the record's status. -/
theorem aggregate_counts_offline_status :
    (Dispatcher.aggregate ⟨[("node_1", initNodeState)], [], 0⟩
        [⟨.okJson 0 (.obj [("status", .str "OFFLINE"), ("current_pnl", .int 5)]), 0, "t"⟩]
        "ts" 0 .null).toOption.map
      (fun p => (getField? p.1 "active_nodes", getField? p.1 "war_chest",
        (getField? p.1 "nodes").bind (fun ns => getField? ns "node_1")))
      = some (some (.int 1), some (.float 500 2),
          some (.obj [("status", .str "OFFLINE"),
                      ("last_action", .str "—"),
                      ("current_pnl", .int 5),
                      ("latency_ms", .float 0 1),
                      ("latency_jitter", .float 0 1)])) := by
  have hz : round (10 * ((0 - 0 : ℚ) * 1000)) = 0 := by norm_num [round_eq]
  have hread : NodeMonitor.read initNodeState
      ⟨.okJson 0 (.obj [("status", .str "OFFLINE"), ("current_pnl", .int 5)]), 0, "t"⟩ =
      (.ok (some [("status", .str "OFFLINE"), ("current_pnl", .int 5),
                  ("latency_ms", .float 0 1), ("latency_jitter", .float 0 1)]),
       ⟨0, some [("status", .str "OFFLINE"), ("current_pnl", .int 5),
                 ("latency_ms", .float 0 1), ("latency_jitter", .float 0 1)],
        [(0 - 0) * 1000]⟩) := by
    simp [NodeMonitor.read, initNodeState, setK, pushSample, calcJitter, round1, hz]
  have hstrike : ¬ (1000 : ℚ) < |decVal 5 0| := by
    rw [decVal]; norm_num
  have hstep : aggStep ⟨[], 0, 0, 0, [], []⟩ ("node_1", initNodeState)
      ⟨.okJson 0 (.obj [("status", .str "OFFLINE"), ("current_pnl", .int 5)]), 0, "t"⟩ =
      .ok ⟨[("node_1", .obj [("status", .str "OFFLINE"),
                             ("last_action", .str "—"),
                             ("current_pnl", .int 5),
                             ("latency_ms", .float 0 1),
                             ("latency_jitter", .float 0 1)])],
           0 + decVal 5 0, 0 + decVal 0 1, 0 + 1, [],
           [("node_1", ⟨0, some [("status", .str "OFFLINE"), ("current_pnl", .int 5),
                 ("latency_ms", .float 0 1), ("latency_jitter", .float 0 1)],
             [(0 - 0) * 1000]⟩)]⟩ := by
    simp [aggStep, hread, getD_cons, getD_nil, pyFloat?, pyNum?, nodeEntry, hstrike]
  have hwc : round (100 * decVal 5 0) = 500 := by
    rw [decVal]; norm_num [round_eq]
  simp only [Dispatcher.aggregate, aggLoop, hstep, buildPacket, hwc, Option.map,
    Except.toOption]
  refine Option.map_eq_some'.mpr ⟨_, rfl, ?_⟩
  have hwc2 : round (100 * (0 + decVal 5 0)) = 500 := by rw [decVal]; norm_num [round_eq]
  exact congrArg₂ Prod.mk rfl
    (congrArg₂ Prod.mk (by simp [getField?, List.find?, hwc2, hwc]) rfl)

/-- **C2 (amended).**  Activity is decided solely by whether `read` returned
data: a node whose document is absent yields the sentinel OFFLINE record and
contributes nothing to the P&L sum, the latency total or the active count;
but every node whose read yields data — including a record whose own
`status` field says OFFLINE — is counted as active and summed. -/
theorem aggregate_active_is_data_yield (acc : AggAcc) (id : String) (st : NodeState)
    (inp : NodeInput) :
    (inp.read = .absent →
      aggStep acc (id, st) inp = .ok { acc with
        node_data := acc.node_data ++ [(id, .obj [("status", .str "OFFLINE")])],
        cells := acc.cells ++ [(id, st)] })
    ∧ (∀ data st2 pnl lat,
        NodeMonitor.read st inp = (.ok (some data), st2) →
        pyFloat? (getD data "current_pnl" (.int 0)) = some pnl →
        pyNum? (getD data "latency_ms" (.int 0)) = some lat →
        ∃ acc2, aggStep acc (id, st) inp = .ok acc2 ∧
          acc2.war_chest = acc.war_chest + decVal pnl.1 pnl.2 ∧
          acc2.total_latency = acc.total_latency + lat ∧
          acc2.active_nodes = acc.active_nodes + 1) := by
  constructor
  · intro h; simp [aggStep, NodeMonitor.read, h]
  · intro data st2 pnl lat hr hp hl
    exact ⟨{ node_data := acc.node_data ++ [(id, nodeEntry data)],
             war_chest := acc.war_chest + decVal pnl.1 pnl.2,
             total_latency := acc.total_latency + lat,
             active_nodes := acc.active_nodes + 1,
             strike_log :=
               if 1000 < |decVal pnl.1 pnl.2| then
                 pushStrike acc.strike_log
                   (strikeEvent inp.strikeTime id pnl (getD data "last_action" (.str "—")))
               else acc.strike_log,
             cells := acc.cells ++ [(id, st2)] },
      by simp [aggStep, hr, hp, hl], rfl, rfl, rfl⟩

/-- **C2, witness.**  The amended theorem at a concrete absent-document
cycle. -/
theorem aggregate_active_is_data_yield_witness :
    aggStep ⟨[], 0, 0, 0, [], []⟩ ("node_1", initNodeState) ⟨.absent, 0, "t"⟩ =
      .ok { (⟨[], 0, 0, 0, [], []⟩ : AggAcc) with
        node_data := [] ++ [("node_1", .obj [("status", .str "OFFLINE")])],
        cells := [] ++ [("node_1", initNodeState)] } :=
  (aggregate_active_is_data_yield ⟨[], 0, 0, 0, [], []⟩ "node_1" initNodeState
    ⟨.absent, 0, "t"⟩).1 rfl

/-- **C3 (confirmed).**  In every snapshot `aggregate` returns, `war_chest`
is the node P&L total rounded to two decimals and `progress_pct` is
`clamp(0, 100, 100 · total / goal)` rounded to two decimals, which always
lies in `[0, 100]` — for negative totals and totals beyond the goal alike. -/
theorem progress_pct_clamped (d : Dispatcher) (ins : List NodeInput) (ts : String)
    (nowTs : ℚ) (health : Json) (pkt : Json) (d' : Dispatcher)
    (h : Dispatcher.aggregate d ins ts nowTs health = .ok (pkt, d')) :
    ∃ (total : ℚ) (m : ℤ),
      getField? pkt "war_chest" = some (.float (round (100 * total)) 2) ∧
      getField? pkt "progress_pct" = some (.float m 2) ∧
      m = round (100 * min 100 (max 0 (100 * total / WAR_CHEST_GOAL))) ∧
      0 ≤ decVal m 2 ∧ decVal m 2 ≤ 100 := by
  rw [Dispatcher.aggregate] at h
  split at h
  · exact absurd h (by simp)
  · rename_i acc hloop
    simp only [Prod.mk.injEq, Except.ok.injEq] at h
    obtain ⟨rfl, rfl⟩ := h
    refine ⟨acc.war_chest, round (100 * min 100 (max 0 (acc.war_chest / WAR_CHEST_GOAL * 100))),
      ?_, ?_, ?_, ?_, ?_⟩
    · simp [buildPacket, getField?, List.find?]
    · simp [buildPacket, getField?, List.find?]
    · have : acc.war_chest / WAR_CHEST_GOAL * 100 = 100 * acc.war_chest / WAR_CHEST_GOAL := by
        ring
      rw [this]
    · rw [decVal]
      have h0 : (0 : ℚ) ≤ min 100 (max 0 (acc.war_chest / WAR_CHEST_GOAL * 100)) :=
        le_min (by norm_num) (le_max_left 0 _)
      have hm : (0 : ℤ) ≤ round (100 * min 100 (max 0 (acc.war_chest / WAR_CHEST_GOAL * 100))) := by
        rw [round_eq]
        refine Int.le_floor.mpr ?_
        push_cast
        linarith
      apply div_nonneg _ (by positivity)
      exact_mod_cast hm
    · rw [decVal]
      have h100 : min 100 (max 0 (acc.war_chest / WAR_CHEST_GOAL * 100)) ≤ 100 :=
        min_le_left _ _
      have hm : round (100 * min 100 (max 0 (acc.war_chest / WAR_CHEST_GOAL * 100))) ≤ 10000 := by
        rw [round_eq]
        have hle : (100 * min 100 (max 0 (acc.war_chest / WAR_CHEST_GOAL * 100)) + 1 / 2 : ℚ)
            ≤ 10000 + 1 / 2 := by linarith
        have hff := Int.floor_le_floor hle
        have h2 : ⌊(10000 + 1 / 2 : ℚ)⌋ = 10000 := by norm_num
        omega
      rw [div_le_iff₀ (by norm_num)]
      have hc : ((round (100 * min 100 (max 0 (acc.war_chest / WAR_CHEST_GOAL * 100))) : ℤ) : ℚ)
          ≤ 10000 := by exact_mod_cast hm
      refine le_trans hc (by norm_num)

theorem progress_pct_clamped_witness :
    ∃ (total : ℚ) (m : ℤ),
      getField? (buildPacket ⟨[], [], 0⟩ ⟨[], 0, 0, 0, [], []⟩ "t" 0 .null) "war_chest"
        = some (.float (round (100 * total)) 2) ∧
      getField? (buildPacket ⟨[], [], 0⟩ ⟨[], 0, 0, 0, [], []⟩ "t" 0 .null) "progress_pct"
        = some (.float m 2) ∧
      m = round (100 * min 100 (max 0 (100 * total / WAR_CHEST_GOAL))) ∧
      0 ≤ decVal m 2 ∧ decVal m 2 ≤ 100 :=
  progress_pct_clamped ⟨[], [], 0⟩ [] "t" 0 .null _ _ rfl

/-! ## Strike-log bound lemmas -/

theorem pushStrike_length (log : List Json) (ev : Json) (h : log.length ≤ 50) :
    (pushStrike log ev).length ≤ 50 := by
  simp only [pushStrike]
  split <;> simp_all [List.length_tail, List.length_append]

theorem pushStrike_suffix (log : List Json) (ev : Json) :
    pushStrike log ev <:+ log ++ [ev] := by
  simp only [pushStrike]
  split
  · exact List.tail_suffix _
  · exact List.suffix_refl _

theorem suffix_append_both {α : Type} {l1 l2 : List α} (t : List α) (h : l1 <:+ l2) :
    l1 ++ t <:+ l2 ++ t := by
  obtain ⟨w, hw⟩ := h
  exact ⟨w, by rw [← List.append_assoc, hw]⟩

theorem aggStep_log (acc acc' : AggAcc) (cell : String × NodeState) (inp : NodeInput)
    (h : aggStep acc cell inp = .ok acc') :
    acc'.strike_log = acc.strike_log ∨
      ∃ ev, acc'.strike_log = pushStrike acc.strike_log ev := by
  rcases hread : NodeMonitor.read cell.2 inp with ⟨res, st2⟩
  simp only [aggStep, hread] at h
  rcases res with e | od
  · simp at h
  · rcases od with _ | data
    · simp only [Except.ok.injEq] at h
      subst h
      exact Or.inl rfl
    · rcases hp : pyFloat? (getD data "current_pnl" (.int 0)) with _ | pnl
      · simp [hp] at h
      · rcases hl : pyNum? (getD data "latency_ms" (.int 0)) with _ | lat
        · simp [hp, hl] at h
        · simp only [hp, hl, Except.ok.injEq] at h
          subst h
          by_cases hc : 1000 < |decVal pnl.1 pnl.2|
          · exact Or.inr ⟨strikeEvent inp.strikeTime cell.1 pnl
              (getD data "last_action" (.str "—")), by simp [hc]⟩
          · exact Or.inl (by simp [hc])

theorem aggLoop_log (l : List ((String × NodeState) × NodeInput)) :
    ∀ acc acc', aggLoop acc l = .ok acc' →
      (acc.strike_log.length ≤ 50 → acc'.strike_log.length ≤ 50) ∧
      ∃ evs, acc'.strike_log <:+ acc.strike_log ++ evs := by
  induction l with
  | nil =>
      intro acc acc' h
      rw [aggLoop, Except.ok.injEq] at h
      subst h
      exact ⟨id, [], by simp⟩
  | cons p rest ih =>
      obtain ⟨cell, inp⟩ := p
      intro acc acc' h
      rw [aggLoop] at h
      split at h
      · exact absurd h (by simp)
      · rename_i acc1 hstep
        obtain ⟨ih1, evs, hsuf⟩ := ih acc1 acc' h
        rcases aggStep_log acc acc1 cell inp hstep with heq | ⟨ev, heq⟩
        · exact ⟨fun h50 => ih1 (heq ▸ h50), evs, by rwa [heq] at hsuf⟩
        · refine ⟨fun h50 => ih1 ?_, [ev] ++ evs, ?_⟩
          · rw [heq]; exact pushStrike_length _ _ h50
          · refine hsuf.trans ?_
            rw [heq, ← List.append_assoc]
            exact suffix_append_both evs (pushStrike_suffix acc.strike_log ev)

/-- **C7 (confirmed).**  If the rolling strike log holds at most 50 events
before a cycle, it holds at most 50 after it, and it evolves only by
dropping oldest entries and appending this cycle's events (it stays a suffix
of the old log followed by new events); the snapshot's `strike_log` field is
the last at-most-10 entries — a suffix — of the rolling log. -/
theorem strike_log_bounds (d : Dispatcher) (ins : List NodeInput) (ts : String)
    (nowTs : ℚ) (health : Json) (pkt : Json) (d' : Dispatcher)
    (h : Dispatcher.aggregate d ins ts nowTs health = .ok (pkt, d'))
    (h50 : d.strike_log.length ≤ 50) :
    d'.strike_log.length ≤ 50 ∧
    (∃ evs, d'.strike_log <:+ d.strike_log ++ evs) ∧
    ∃ l, getField? pkt "strike_log" = some (.arr l) ∧ l.length ≤ 10 ∧
      l <:+ d'.strike_log := by
  rw [Dispatcher.aggregate] at h
  split at h
  · exact absurd h (by simp)
  · rename_i acc hloop
    simp only [Prod.mk.injEq, Except.ok.injEq] at h
    obtain ⟨rfl, rfl⟩ := h
    obtain ⟨hl, evs, hs⟩ := aggLoop_log (d.nodes.zip ins) _ acc hloop
    refine ⟨hl h50, ⟨evs, hs⟩, lastTen acc.strike_log, ?_, ?_, ?_⟩
    · simp [buildPacket, getField?, List.find?]
    · simp only [lastTen, List.length_drop]
      omega
    · exact List.drop_suffix _ _

theorem strike_log_bounds_witness :
    (⟨[], [], 0⟩ : Dispatcher).strike_log.length ≤ 50 ∧
    (∃ evs, (⟨[], [], 0⟩ : Dispatcher).strike_log <:+ (⟨[], [], 0⟩ : Dispatcher).strike_log ++ evs) ∧
    ∃ l, getField? (buildPacket ⟨[], [], 0⟩ ⟨[], 0, 0, 0, [], []⟩ "t" 0 .null) "strike_log"
        = some (.arr l) ∧ l.length ≤ 10 ∧ l <:+ (⟨[], [], 0⟩ : Dispatcher).strike_log :=
  strike_log_bounds ⟨[], [], 0⟩ [] "t" 0 .null _ _ rfl (by simp)

/-- **C9 (confirmed).**  On every tick with no pending datagram, or whose
pending datagram fails to deserialize (`receive_packet` returns `None`), the
dashboard's current-snapshot slot is left unchanged — and hence across any
number of consecutive such ticks the last good snapshot keeps being shown. -/
theorem receiver_keeps_last_snapshot (db : Dashboard) (ds : List (Option String)) :
    (∀ x ∈ ds, receive_packet x = none) →
      ticks db ds = db ∧ ∀ x ∈ ds, tick db x = (db, none) := by
  induction ds with
  | nil => intro _; exact ⟨rfl, by simp⟩
  | cons x xs ih =>
      intro h
      have hx : receive_packet x = none := h x (by simp)
      have htick : tick db x = (db, none) := by simp [tick, hx]
      obtain ⟨h1, h2⟩ := ih (fun y hy => h y (by simp [hy]))
      refine ⟨?_, ?_⟩
      · show ticks (tick db x).1 xs = db
        rw [htick]
        exact h1
      · intro y hy
        rcases List.mem_cons.mp hy with rfl | hy'
        · exact htick
        · exact h2 y hy'

theorem receiver_keeps_last_snapshot_witness :
    ticks ⟨some (.obj [("war_chest", .float 0 1)])⟩ [none, none, none]
        = ⟨some (.obj [("war_chest", .float 0 1)])⟩ ∧
    ∀ x ∈ ([none, none, none] : List (Option String)),
      tick ⟨some (.obj [("war_chest", .float 0 1)])⟩ x
        = (⟨some (.obj [("war_chest", .float 0 1)])⟩, none) :=
  receiver_keeps_last_snapshot ⟨some (.obj [("war_chest", .float 0 1)])⟩
    [none, none, none] (by intro x hx; simp at hx; subst hx; rfl)

/-! ## Store lemmas for the strike-log aliasing claim -/

theorem cycleStrikes_get_other (h : Store) (logRef r : Nat) (evs : List Json)
    (hr : r < h.cells.length) (hne : r ≠ logRef) :
    ((cycleStrikes h logRef evs).1).get r = h.get r := by
  simp only [cycleStrikes, Store.get, List.getD_eq_getElem?_getD]
  rw [List.getElem?_append_left (by simp [List.length_set]; omega),
    List.getElem?_set_ne (Ne.symm hne)]

theorem cycleStrikes_length (h : Store) (logRef : Nat) (evs : List Json) :
    ((cycleStrikes h logRef evs).1).cells.length = h.cells.length + 1 := by
  simp [cycleStrikes, List.length_set]

theorem runCycles_get_other (later : List (List Json)) :
    ∀ (h : Store) (logRef r : Nat), r < h.cells.length → r ≠ logRef →
      (runCycles h logRef later).get r = h.get r := by
  induction later with
  | nil => intro h logRef r _ _; rfl
  | cons evs rest ih =>
      intro h logRef r hr hne
      show (runCycles (cycleStrikes h logRef evs).1 logRef rest).get r = h.get r
      rw [ih (cycleStrikes h logRef evs).1 logRef r
          (by rw [cycleStrikes_length]; omega) hne]
      exact cycleStrikes_get_other h logRef r evs hr hne

/-- **C10 (confirmed).**  The snapshot's `strike_log` field is a freshly
allocated copy of the last-ten slice (Python slicing copies), not a
reference into the rolling log: the reference the snapshot receives differs
from the rolling log's reference, and no number of later aggregation cycles
— each appending to and evicting from the rolling log in place — ever
changes the list the snapshot holds. -/
theorem snapshot_strike_log_immutable (h : Store) (logRef : Nat) (evs : List Json)
    (hlog : logRef < h.cells.length) :
    (cycleStrikes h logRef evs).2 ≠ logRef ∧
    ∀ later, (runCycles (cycleStrikes h logRef evs).1 logRef later).get
        (cycleStrikes h logRef evs).2 =
      ((cycleStrikes h logRef evs).1).get (cycleStrikes h logRef evs).2 := by
  have hsnap : (cycleStrikes h logRef evs).2 = h.cells.length := by
    simp [cycleStrikes, List.length_set]
  constructor
  · omega
  · intro later
    exact runCycles_get_other later _ logRef _
      (by rw [cycleStrikes_length]; omega) (by omega)

theorem snapshot_strike_log_immutable_witness :
    (cycleStrikes ⟨[[]]⟩ 0 [.obj [("pnl", .float 15000 1)]]).2 ≠ 0 ∧
    ∀ later, (runCycles (cycleStrikes ⟨[[]]⟩ 0 [.obj [("pnl", .float 15000 1)]]).1 0 later).get
        (cycleStrikes ⟨[[]]⟩ 0 [.obj [("pnl", .float 15000 1)]]).2 =
      ((cycleStrikes ⟨[[]]⟩ 0 [.obj [("pnl", .float 15000 1)]]).1).get
        (cycleStrikes ⟨[[]]⟩ 0 [.obj [("pnl", .float 15000 1)]]).2 :=
  snapshot_strike_log_immutable ⟨[[]]⟩ 0 [.obj [("pnl", .float 15000 1)]] (by simp)

/-! ## The no-raise boundary (C1) -/

theorem read_wf (st : NodeState) (inp : NodeInput) (hst : wfState st) (hin : wfInput inp) :
    ∃ od st', NodeMonitor.read st inp = (.ok od, st') ∧
      ∀ data, od = some data → wfData data := by
  match hread : inp.read with
  | .absent => exact ⟨none, st, by rw [NodeMonitor.read, hread], by simp⟩
  | .statErr =>
      exact ⟨st.last_data, st, by rw [NodeMonitor.read, hread], fun data hd => hst data hd⟩
  | .readErr m =>
      exact ⟨st.last_data, _, by rw [NodeMonitor.read, hread], fun data hd => hst data hd⟩
  | .badJson m =>
      exact ⟨st.last_data, _, by rw [NodeMonitor.read, hread], fun data hd => hst data hd⟩
  | .okJson m doc =>
      obtain ⟨kvs, rfl, hpnl⟩ := hin m doc hread
      refine ⟨some (setK (setK kvs "latency_ms" (round1 ((inp.now - m) * 1000)))
        "latency_jitter" (calcJitter (pushSample st.latency_samples ((inp.now - m) * 1000)))),
        _, by rw [NodeMonitor.read, hread], ?_⟩
      rintro data ⟨rfl⟩
      constructor
      · rwa [getD_setK_ne _ _ _ _ _ (by decide), getD_setK_ne _ _ _ _ _ (by decide)]
      · rw [getD_setK_ne _ _ _ _ _ (by decide), getD_setK_self]
        simp [round1, pyNum?]

theorem aggStep_ok (acc : AggAcc) (cell : String × NodeState) (inp : NodeInput)
    (hst : wfState cell.2) (hin : wfInput inp) :
    ∃ acc', aggStep acc cell inp = .ok acc' := by
  obtain ⟨od, st', hread, hwf⟩ := read_wf cell.2 inp hst hin
  match hstep : aggStep acc cell inp with
  | .ok a => exact ⟨a, rfl⟩
  | .error e =>
      exfalso
      simp only [aggStep, hread] at hstep
      rcases od with _ | data
      · simp at hstep
      · obtain ⟨hpnl, hlat⟩ := hwf data rfl
        obtain ⟨pnl, hp⟩ := Option.isSome_iff_exists.mp hpnl
        obtain ⟨lat, hl⟩ := Option.isSome_iff_exists.mp hlat
        simp [hp, hl] at hstep

theorem aggLoop_ok (l : List ((String × NodeState) × NodeInput))
    (h : ∀ p ∈ l, wfState p.1.2 ∧ wfInput p.2) :
    ∀ acc, ∃ acc', aggLoop acc l = .ok acc' := by
  induction l with
  | nil => intro acc; exact ⟨acc, rfl⟩
  | cons p rest ih =>
      obtain ⟨cell, inp⟩ := p
      intro acc
      obtain ⟨hst, hin⟩ := h (cell, inp) (by simp)
      obtain ⟨acc1, hstep⟩ := aggStep_ok acc cell inp hst hin
      obtain ⟨acc', hrest⟩ := ih (fun q hq => h q (by simp [hq])) acc1
      refine ⟨acc', ?_⟩
      rw [aggLoop, hstep]
      exact hrest

/-- **C1, counterexample.**  The claim says `aggregate` completes for every
possible document content, including valid JSON of non-object shape such as
`null`.  A single node whose document is the four bytes `null` (valid JSON)
makes `aggregate` raise: `read` parses it, then `data["latency_ms"] = ...`
at line 137 raises `TypeError` (`NoneType` does not support item
assignment), which neither `read` (line 143 catches only `JSONDecodeError`
and `IOError`) nor `aggregate` catches. -/
theorem aggregate_raises_on_null_doc :
    Dispatcher.aggregate ⟨[("node_1", initNodeState)], [], 0⟩
      [⟨.okJson 0 .null, 0, "t"⟩] "ts" 0 .null = .error () := rfl

/-- **C1 (amended).**  `aggregate` completes and returns a snapshot provided
every node document that parses parses to a JSON *object* whose
`current_pnl`, when present, is convertible by `float()` (a number, bool or
numeric string), and every cached record is likewise well-typed; within that
boundary, absent documents degrade to the OFFLINE sentinel and parse/IO
failures to the cached record, per node.  Outside it — a document that is
valid JSON of non-object shape, or a non-convertible `current_pnl` — the
cycle raises (see the counterexample). -/
theorem aggregate_total (d : Dispatcher) (ins : List NodeInput) (ts : String)
    (nowTs : ℚ) (health : Json)
    (hst : ∀ c ∈ d.nodes, wfState c.2) (hin : ∀ i ∈ ins, wfInput i) :
    ∃ pkt d', Dispatcher.aggregate d ins ts nowTs health = .ok (pkt, d') := by
  have hz : ∀ p ∈ d.nodes.zip ins, wfState p.1.2 ∧ wfInput p.2 := by
    intro p hp
    obtain ⟨a, b⟩ := p
    obtain ⟨h1, h2⟩ := List.of_mem_zip hp
    exact ⟨hst a h1, hin b h2⟩
  obtain ⟨acc', hloop⟩ := aggLoop_ok (d.nodes.zip ins) hz ⟨[], 0, 0, 0, d.strike_log, []⟩
  exact ⟨buildPacket d acc' ts nowTs health, ⟨acc'.cells, acc'.strike_log, d.start_time⟩,
    by rw [Dispatcher.aggregate, hloop]⟩

theorem aggregate_total_witness :
    ∃ pkt d', Dispatcher.aggregate ⟨[("node_1", initNodeState)], [], 0⟩
      [⟨.okJson 0 (.obj [("current_pnl", .int 5)]), 0, "t"⟩] "ts" 0 .null = .ok (pkt, d') :=
  aggregate_total ⟨[("node_1", initNodeState)], [], 0⟩
    [⟨.okJson 0 (.obj [("current_pnl", .int 5)]), 0, "t"⟩] "ts" 0 .null
    (by intro c hc
        simp only [List.mem_singleton] at hc
        subst hc
        rintro data hd
        cases hd)
    (by intro i hi
        simp only [List.mem_singleton] at hi
        subst hi
        rintro m doc hd
        cases hd
        exact ⟨[("current_pnl", .int 5)], rfl, rfl⟩)

/-! ## Decimal digit lemmas (towards the wire round-trip) -/

theorem natChars_def (n : Nat) :
    natChars n = if n < 10 then [digitChar n]
      else natChars (n / 10) ++ [digitChar (n % 10)] := by
  rw [natChars]
  split <;> rfl

theorem digitChar_isDig (d : Nat) (h : d < 10) : isDig (digitChar d) = true := by
  interval_cases d <;> decide

theorem digitChar_val (d : Nat) (h : d < 10) : digVal (digitChar d) = d := by
  interval_cases d <;> decide

theorem natChars_ne_nil (n : Nat) : natChars n ≠ [] := by
  rw [natChars_def]
  split <;> simp

theorem natChars_digits (k : Nat) : ∀ c ∈ natChars k, isDig c = true := by
  induction k using Nat.strongRecOn with
  | _ k ih =>
      rw [natChars_def]
      split
      · intro c hc
        rw [List.mem_singleton] at hc
        subst hc
        exact digitChar_isDig k (by omega)
      · intro c hc
        rcases List.mem_append.mp hc with h1 | h2
        · exact ih (k / 10) (Nat.div_lt_self (by omega) (by omega)) c h1
        · rw [List.mem_singleton] at h2
          subst h2
          exact digitChar_isDig _ (Nat.mod_lt _ (by omega))

theorem natChars_head_ne_zero (k : Nat) (hn : k ≠ 0) :
    ∀ c t, natChars k = c :: t → c ≠ '0' := by
  induction k using Nat.strongRecOn with
  | _ k ih =>
      intro c t hc
      rw [natChars_def] at hc
      by_cases h10 : k < 10
      · rw [if_pos h10, List.cons.injEq] at hc
        obtain ⟨hceq, -⟩ := hc
        subst hceq
        interval_cases k
        all_goals first | exact absurd rfl hn | decide
      · rw [if_neg h10] at hc
        obtain ⟨c0, t0, he⟩ : ∃ c0 t0, natChars (k / 10) = c0 :: t0 := by
          rcases hh : natChars (k / 10) with _ | ⟨c0, t0⟩
          · exact absurd hh (natChars_ne_nil _)
          · exact ⟨c0, t0, rfl⟩
        rw [he, List.cons_append, List.cons.injEq] at hc
        obtain ⟨hceq, -⟩ := hc
        subst hceq
        exact ih (k / 10) (Nat.div_lt_self (by omega) (by omega))
          (by omega) c0 t0 he

theorem natChars_len_one (n : Nat) (h : n < 10) : (natChars n).length = 1 := by
  rw [natChars_def, if_pos h]
  rfl

theorem natChars_len_gt_one (n : Nat) (h : 10 ≤ n) : 1 < (natChars n).length := by
  rw [natChars_def, if_neg (by omega), List.length_append]
  have h1 : 0 < (natChars (n / 10)).length := List.length_pos.mpr (natChars_ne_nil _)
  simp only [List.length_singleton]
  omega

theorem digitsVal_foldl (l : List Char) :
    ∀ b, l.foldl (fun v x => v * 10 + digVal x) b = b * 10 ^ l.length + digitsVal l := by
  induction l with
  | nil => intro b; simp [digitsVal]
  | cons x l ihl =>
      intro b
      have hx : digitsVal (x :: l) = digVal x * 10 ^ l.length + digitsVal l := by
        show List.foldl (fun v x => v * 10 + digVal x) ((0 : Nat) * 10 + digVal x) l = _
        rw [ihl]
        ring
      show List.foldl (fun v x => v * 10 + digVal x) (b * 10 + digVal x) l = _
      rw [ihl, hx, List.length_cons]
      ring

theorem digitsVal_cons (c : Char) (ds : List Char) :
    digitsVal (c :: ds) = digVal c * 10 ^ ds.length + digitsVal ds := by
  show List.foldl (fun v x => v * 10 + digVal x) ((0 : Nat) * 10 + digVal c) ds = _
  rw [digitsVal_foldl]
  ring

theorem digitsVal_append_single (l : List Char) (c : Char) :
    digitsVal (l ++ [c]) = digitsVal l * 10 + digVal c := by
  simp [digitsVal, List.foldl_append]

/-- `readDigits` over a run of digit characters followed by a non-digit:
accumulates the run's value, counts its length, and stops at the boundary. -/
theorem readDigits_run (rest : List Char)
    (hrest : ∀ c t, rest = c :: t → isDig c = false)
    (digs : List Char) (hdig : ∀ c ∈ digs, isDig c = true) :
    ∀ a, readDigits (digs ++ rest) a =
      (a * 10 ^ digs.length + digitsVal digs, digs.length, rest) := by
  induction digs with
  | nil =>
      intro a
      rcases rest with _ | ⟨c, t⟩
      · simp [readDigits, digitsVal]
      · have hc : isDig c = false := hrest c t rfl
        simp [readDigits, hc, digitsVal]
  | cons c digs ih =>
      intro a
      have hc : isDig c = true := hdig c (by simp)
      have hrec := ih (fun u hu => hdig u (by simp [hu])) (a * 10 + digVal c)
      rw [List.cons_append, readDigits, if_pos hc, hrec]
      rw [digitsVal_cons, List.length_cons]
      refine Prod.ext ?_ rfl
      show (a * 10 + digVal c) * 10 ^ digs.length + digitsVal digs = _
      ring

theorem digitsVal_natChars (k : Nat) : digitsVal (natChars k) = k := by
  induction k using Nat.strongRecOn with
  | _ k ih =>
      rw [natChars_def]
      split
      · rename_i h
        rw [show digitsVal [digitChar k]
            = (0 : Nat) * 10 + digVal (digitChar k) from rfl]
        rw [digitChar_val k h]
        omega
      · rename_i h
        rw [digitsVal_append_single,
          ih (k / 10) (Nat.div_lt_self (by omega) (by omega)),
          digitChar_val _ (Nat.mod_lt _ (by omega))]
        omega

theorem natChars_lt_pow (k : Nat) : k < 10 ^ (natChars k).length := by
  induction k using Nat.strongRecOn with
  | _ k ih =>
      rw [natChars_def]
      split
      · rename_i h
        simpa using h
      · rename_i h
        have hrec := ih (k / 10) (Nat.div_lt_self (by omega) (by omega))
        rw [List.length_append, List.length_singleton, pow_succ]
        have h1 : k / 10 + 1 ≤ 10 ^ (natChars (k / 10)).length := hrec
        have h2 : (k / 10 + 1) * 10 ≤ 10 ^ (natChars (k / 10)).length * 10 :=
          Nat.mul_le_mul_right 10 h1
        omega

theorem padChars_digits (k n : Nat) : ∀ c ∈ padChars k n, isDig c = true := by
  intro c hc
  rcases List.mem_append.mp hc with h1 | h2
  · rw [List.eq_of_mem_replicate h1]
    decide
  · exact natChars_digits n c h2

theorem natChars_len_le (k : Nat) : ∀ n, 1 ≤ k → n < 10 ^ k → (natChars n).length ≤ k := by
  induction k with
  | zero => intro n h; omega
  | succ k ihk =>
      intro n _ hn
      by_cases h10 : n < 10
      · rw [natChars_len_one n h10]; omega
      · rw [natChars_def, if_neg h10, List.length_append, List.length_singleton]
        have hk1 : 1 ≤ k := by
          by_contra hk0
          have : k = 0 := by omega
          subst this
          simp at hn
          omega
        have hdiv : n / 10 < 10 ^ k := by
          have : n < 10 ^ k * 10 := by rw [← pow_succ]; exact hn
          omega
        have := ihk (n / 10) hk1 hdiv
        omega

theorem padChars_length (k n : Nat) (hk : 1 ≤ k) (h : n < 10 ^ k) :
    (padChars k n).length = k := by
  have hle : (natChars n).length ≤ k := natChars_len_le k n hk h
  simp only [padChars, List.length_append, List.length_replicate]
  omega

theorem digitsVal_padChars (k n : Nat) : digitsVal (padChars k n) = n := by
  have hz : ∀ j (l : List Char), digitsVal (List.replicate j '0' ++ l) = digitsVal l := by
    intro j
    induction j with
    | zero => intro l; simp
    | succ j ihj =>
        intro l
        show digitsVal ('0' :: (List.replicate j '0' ++ l)) = digitsVal l
        rw [digitsVal_cons, ihj l, show digVal '0' = 0 from rfl]
        ring
  rw [padChars, hz, digitsVal_natChars]

/-! ## Character classification helpers -/

theorem isDig_bounds (c : Char) (h : isDig c = true) : 48 ≤ c.toNat ∧ c.toNat ≤ 57 := by
  simpa [isDig] using h

theorem char_ne_of_toNat_ne {c d : Char} (h : c.toNat ≠ d.toNat) : c ≠ d :=
  fun he => h (he ▸ rfl)

theorem isDig_ne_minus (c : Char) (h : isDig c = true) : c ≠ '-' :=
  char_ne_of_toNat_ne (by
    have h2 := isDig_bounds c h
    have h3 : ('-').toNat = 45 := rfl
    omega)

theorem isDig_ne_dot (c : Char) (h : isDig c = true) : c ≠ '.' :=
  char_ne_of_toNat_ne (by
    have h2 := isDig_bounds c h
    have h3 : ('.').toNat = 46 := rfl
    omega)

theorem natChars_cons (n : Nat) :
    ∃ c t, natChars n = c :: t ∧ isDig c = true := by
  rcases hh : natChars n with _ | ⟨c, t⟩
  · exact absurd hh (natChars_ne_nil n)
  · exact ⟨c, t, rfl, natChars_digits n c (hh ▸ List.mem_cons_self c t)⟩

theorem numBoundary_head (rest : List Char) (hb : numBoundary rest = true) :
    ∀ c t, rest = c :: t → isDig c = false ∧ c ≠ '.' := by
  intro c t hct
  subst hct
  simp only [numBoundary, Bool.or_eq_false_iff, Bool.not_eq_true'] at hb
  exact ⟨hb.1, by simpa using hb.2⟩

theorem stripMinus_minus (r : List Char) : stripMinus ('-' :: r) = (true, r) := rfl

theorem stripMinus_other (c : Char) (r : List Char) (h : c ≠ '-') :
    stripMinus (c :: r) = (false, c :: r) := by
  rw [stripMinus]
  intro r' heq
  rw [List.cons.injEq] at heq
  exact h heq.1

theorem normF_e_pos (e : Nat) : ∀ m : Int, 1 ≤ (normF m e).2 := by
  induction e using Nat.strongRecOn with
  | _ e ih =>
      intro m
      match e with
      | 0 => simp [normF]
      | 1 => simp [normF]
      | Nat.succ (Nat.succ e) =>
          rw [normF]
          split
          · exact ih (e + 1) (by omega) (m / 10)
          · simp

theorem decVal_normF (e : Nat) : ∀ m : Int,
    decVal (normF m e).1 (normF m e).2 = decVal m e := by
  induction e using Nat.strongRecOn with
  | _ e ih =>
      intro m
      match e with
      | 0 =>
          show decVal (m * 10) 1 = decVal m 0
          rw [decVal, decVal]
          push_cast
          ring
      | 1 => rfl
      | Nat.succ (Nat.succ e) =>
          rw [normF]
          split
          · rename_i hdiv
            rw [ih (e + 1) (by omega) (m / 10)]
            have hm : m / 10 * 10 = m :=
              Int.ediv_mul_cancel (Int.dvd_of_emod_eq_zero (by simpa using hdiv))
            have hq : ((m : ℚ)) = ((m / 10 : ℤ) : ℚ) * 10 := by
              exact_mod_cast (congrArg (fun z : ℤ => (z : ℚ)) hm).symm
            rw [decVal, decVal, hq]
            field_simp
            ring
          · rfl

theorem natChars_no_leading_zero (n : Nat) (c : Char) (t : List Char)
    (hnat : natChars n = c :: t) :
    ¬ ((decide (1 < (natChars n).length) && (c == '0')) = true) := by
  simp only [Bool.and_eq_true, decide_eq_true_eq, beq_iff_eq, not_and]
  intro hlen hc0
  have hge : ¬ n < 10 := fun hlt => by rw [natChars_len_one _ hlt] at hlen; omega
  exact natChars_head_ne_zero n (by omega) _ t hnat hc0

theorem parseNum_intChars (i : Int) (rest : List Char) (hb : numBoundary rest = true) :
    parseNum (intChars i ++ rest) = some (.int i, rest) := by
  obtain ⟨c, t, hnat, hdig⟩ := natChars_cons i.natAbs
  have hrun := readDigits_run rest (fun c t hct => (numBoundary_head rest hb c t hct).1)
    (natChars i.natAbs) (natChars_digits _) 0
  rw [digitsVal_natChars] at hrun
  have hlz := natChars_no_leading_zero i.natAbs c t hnat
  have habs : ((i.natAbs : Int)) = |i| := Int.abs_eq_natAbs i ▸ rfl
  have hsc : stripMinus (intChars i ++ rest)
      = (decide (i < 0), natChars i.natAbs ++ rest) := by
    by_cases hneg : i < 0
    · rw [show intChars i ++ rest = '-' :: (natChars i.natAbs ++ rest) from by
        simp [intChars, hneg], stripMinus_minus]
      simp [hneg]
    · rw [show intChars i ++ rest = natChars i.natAbs ++ rest from by
        simp [intChars, hneg]]
      rw [hnat, List.cons_append, stripMinus_other c _ (isDig_ne_minus c hdig)]
      simp [hneg]
  rw [parseNum, hsc]
  dsimp only
  rw [hnat, List.cons_append]
  dsimp only
  rw [if_pos hdig]
  rw [← List.cons_append, ← hnat, hrun]
  dsimp only
  rw [if_neg hlz]
  split
  · rename_i cs3
    exact absurd rfl (numBoundary_head _ hb '.' cs3 rfl).2
  · refine congrArg some (congrArg₂ Prod.mk ?_ rfl)
    rw [Json.int.injEq]
    push_cast [habs]
    by_cases hneg : i < 0 <;> simp [hneg] <;> omega

theorem parseNum_floatChars (m : Int) (e : Nat) (rest : List Char)
    (hb : numBoundary rest = true) :
    parseNum (floatChars m e ++ rest)
      = some (.float (normF m e).1 (normF m e).2, rest) := by
  have he : 1 ≤ (normF m e).2 := normF_e_pos e m
  set m2 := (normF m e).1 with hm2
  set e2 := (normF m e).2 with he2
  set a := m2.natAbs with ha
  have hpow : 0 < 10 ^ e2 := Nat.pos_pow_of_pos e2 (by norm_num)
  have hf : a % 10 ^ e2 < 10 ^ e2 := Nat.mod_lt _ hpow
  obtain ⟨c, t, hnat, hdig⟩ := natChars_cons (a / 10 ^ e2)
  have hdot : ∀ c2 t2,
      ('.' :: (padChars e2 (a % 10 ^ e2) ++ rest) : List Char) = c2 :: t2 →
        isDig c2 = false := by
    intro c2 t2 hct
    rw [List.cons.injEq] at hct
    obtain ⟨h1, -⟩ := hct
    subst h1
    decide
  have hrun1 := readDigits_run ('.' :: (padChars e2 (a % 10 ^ e2) ++ rest)) hdot
    (natChars (a / 10 ^ e2)) (natChars_digits _) 0
  rw [digitsVal_natChars] at hrun1
  have hrun2 := readDigits_run rest (fun c2 t2 hct => (numBoundary_head rest hb c2 t2 hct).1)
    (padChars e2 (a % 10 ^ e2)) (padChars_digits _ _) 0
  rw [digitsVal_padChars, padChars_length e2 _ he hf] at hrun2
  have hlz := natChars_no_leading_zero (a / 10 ^ e2) c t hnat
  have harg : floatChars m e ++ rest
      = (if m2 < 0 then ['-'] else []) ++
        (natChars (a / 10 ^ e2) ++ '.' :: (padChars e2 (a % 10 ^ e2) ++ rest)) := by
    simp [floatChars, ← hm2, ← he2, ← ha, List.append_assoc]
  have hsc : stripMinus (floatChars m e ++ rest)
      = (decide (m2 < 0),
         natChars (a / 10 ^ e2) ++ '.' :: (padChars e2 (a % 10 ^ e2) ++ rest)) := by
    rw [harg]
    by_cases hneg : m2 < 0
    · rw [if_pos hneg]
      rw [show (['-'] ++ (natChars (a / 10 ^ e2) ++ '.' :: (padChars e2 (a % 10 ^ e2) ++ rest))
          : List Char) = '-' :: (natChars (a / 10 ^ e2) ++ '.' ::
            (padChars e2 (a % 10 ^ e2) ++ rest)) from rfl]
      rw [stripMinus_minus]
      simp [hneg]
    · rw [if_neg hneg, List.nil_append, hnat, List.cons_append,
        stripMinus_other c _ (isDig_ne_minus c hdig), ← List.cons_append, ← hnat]
      simp [hneg]
  rw [parseNum, hsc]
  dsimp only
  rw [hnat, List.cons_append]
  dsimp only
  rw [if_pos hdig]
  rw [← List.cons_append, ← hnat, hrun1]
  dsimp only
  rw [if_neg hlz]
  split
  case h_2 hne => exact absurd rfl (hne (padChars e2 (a % 10 ^ e2) ++ rest))
  rename_i cs3 heq
  rw [List.cons.injEq] at heq
  obtain ⟨-, hcs3⟩ := heq
  subst hcs3
  rw [hrun2]
  dsimp only
  rw [if_neg (by simp; omega : ¬ ((e2 == 0) = true))]
  refine congrArg some (congrArg₂ Prod.mk ?_ rfl)
  rw [Json.float.injEq]
  refine ⟨?_, rfl⟩
  have hda : ((a / 10 ^ e2 : ℕ) : ℤ) * (10 : ℤ) ^ e2 + ((a % 10 ^ e2 : ℕ) : ℤ) = (a : ℤ) := by
    have h0 : a / 10 ^ e2 * 10 ^ e2 + a % 10 ^ e2 = a := by
      rw [Nat.mul_comm]
      exact Nat.div_add_mod a (10 ^ e2)
    exact_mod_cast h0
  have habs : ((a : ℕ) : ℤ) = |m2| := (Int.abs_eq_natAbs m2).symm
  simp only [Nat.zero_mul, Nat.zero_add]
  by_cases hneg : m2 < 0
  · rw [if_pos (by simp only [decide_eq_true_eq]; exact hneg)]
    rw [show (-1 : ℤ) * (((a / 10 ^ e2 : ℕ) : ℤ) * (10 : ℤ) ^ e2 + ((a % 10 ^ e2 : ℕ) : ℤ))
        = -(((a / 10 ^ e2 : ℕ) : ℤ) * (10 : ℤ) ^ e2 + ((a % 10 ^ e2 : ℕ) : ℤ)) from by ring]
    rw [hda, habs, abs_of_neg hneg, neg_neg]
  · rw [if_neg (by simp only [decide_eq_true_eq]; exact hneg)]
    rw [one_mul, hda, habs, abs_of_nonneg (not_lt.mp hneg)]

set_option maxHeartbeats 2000000 in
theorem parseStr_plain (acc rest : List Char) (c : Char)
    (h1 : c ≠ '"') (h2 : c ≠ '\\') :
    parseStr acc (c :: rest) =
      if c.toNat < 32 then none else parseStr (c :: acc) rest := by
  rw [parseStr.eq_def]
  split
  · rename_i heq; rw [List.cons.injEq] at heq; exact absurd heq.1 h1
  · rename_i heq; rw [List.cons.injEq] at heq; exact absurd heq.1 h2
  · rename_i heq; rw [List.cons.injEq] at heq; exact absurd heq.1 h2
  · rename_i c2 cs2 heq; rw [List.cons.injEq] at heq
    rw [heq.1, heq.2]
  · rename_i heq; exact absurd heq (List.cons_ne_nil c rest)

set_option maxHeartbeats 1000000 in
theorem parseStr_unicode (acc : List Char) (a b c d : Char) (cs : List Char) :
    parseStr acc ('\\' :: 'u' :: a :: b :: c :: d :: cs) =
      match hexQuad? a b c d with
      | some n =>
          if 55296 ≤ n && n ≤ 56319 then
            match cs with
            | '\\' :: 'u' :: a2 :: b2 :: c2 :: d2 :: cs2 =>
                match hexQuad? a2 b2 c2 d2 with
                | some n2 =>
                    if 56320 ≤ n2 && n2 ≤ 57343 then
                      parseStr
                        (Char.ofNat (65536 + (n - 55296) * 1024 + (n2 - 56320)) :: acc) cs2
                    else none
                | none => none
            | _ => none
          else if 56320 ≤ n && n ≤ 57343 then none
          else parseStr (Char.ofNat n :: acc) cs
      | none => none := by
  rw [parseStr]

theorem hexVal_hexDig (d : Nat) (h : d < 16) : hexVal? (hexDig d) = some d := by
  interval_cases d <;> rfl

theorem hexQuad_hex4 (n : Nat) (h : n < 65536) :
    hexQuad? (hexDig (n / 4096 % 16)) (hexDig (n / 256 % 16))
      (hexDig (n / 16 % 16)) (hexDig (n % 16)) = some n := by
  simp only [hexQuad?, hexVal_hexDig _ (Nat.mod_lt _ (by omega : (0:Nat) < 16)),
    Option.bind_eq_bind, Option.some_bind, Option.some.injEq, bind, pure]
  omega

set_option maxHeartbeats 2000000 in
theorem parseStr_escChar (acc rest : List Char) (c : Char) :
    parseStr acc (escChar c ++ rest) = parseStr (c :: acc) rest := by
  have hv : c.toNat < 55296 ∨ (57343 < c.toNat ∧ c.toNat < 1114112) := c.valid
  rw [escChar]
  by_cases h1 : c == '"'
  · rw [if_pos h1, show c = '"' from by simpa using h1]; rfl
  rw [if_neg h1]
  by_cases h2 : c == '\\'
  · rw [if_pos h2, show c = '\\' from by simpa using h2]; rfl
  rw [if_neg h2]
  by_cases h3 : c.toNat == 8
  · rw [if_pos h3]
    have hc : c = Char.ofNat 8 := by
      have h8 : c.toNat = 8 := by simpa using h3
      rw [← Char.ofNat_toNat c, h8]
    rw [hc]; rfl
  rw [if_neg h3]
  by_cases h4 : c.toNat == 9
  · rw [if_pos h4]
    have hc : c = Char.ofNat 9 := by
      have h9 : c.toNat = 9 := by simpa using h4
      rw [← Char.ofNat_toNat c, h9]
    rw [hc]; rfl
  rw [if_neg h4]
  by_cases h5 : c.toNat == 10
  · rw [if_pos h5]
    have hc : c = Char.ofNat 10 := by
      have h10 : c.toNat = 10 := by simpa using h5
      rw [← Char.ofNat_toNat c, h10]
    rw [hc]; rfl
  rw [if_neg h5]
  by_cases h6 : c.toNat == 12
  · rw [if_pos h6]
    have hc : c = Char.ofNat 12 := by
      have h12 : c.toNat = 12 := by simpa using h6
      rw [← Char.ofNat_toNat c, h12]
    rw [hc]; rfl
  rw [if_neg h6]
  by_cases h7 : c.toNat == 13
  · rw [if_pos h7]
    have hc : c = Char.ofNat 13 := by
      have h13 : c.toNat = 13 := by simpa using h7
      rw [← Char.ofNat_toNat c, h13]
    rw [hc]; rfl
  rw [if_neg h7]
  by_cases h8 : c.toNat < 32 || 127 ≤ c.toNat
  · rw [if_pos h8]
    by_cases h9 : c.toNat < 65536
    · rw [if_pos h9]
      simp only [hex4, List.nil_append, List.cons_append]
      rw [parseStr_unicode, hexQuad_hex4 _ h9]
      dsimp only
      rw [if_neg (by simp only [Bool.and_eq_true, decide_eq_true_eq, not_and]; omega)]
      rw [if_neg (by simp only [Bool.and_eq_true, decide_eq_true_eq, not_and]; omega)]
      rw [Char.ofNat_toNat]
    · rw [if_neg h9]
      simp only [hex4, List.nil_append, List.cons_append]
      rw [parseStr_unicode,
        hexQuad_hex4 (55296 + (c.toNat - 65536) / 1024) (by omega)]
      dsimp only
      rw [if_pos (by simp only [Bool.and_eq_true, decide_eq_true_eq]; omega)]
      split
      · rename_i a2 b2 c2 d2 cs2 heq
        simp only [List.cons.injEq] at heq
        obtain ⟨-, -, ha2, hb2, hc2, hd2, hcs2⟩ := heq
        rw [← ha2, ← hb2, ← hc2, ← hd2, ← hcs2,
          hexQuad_hex4 (56320 + (c.toNat - 65536) % 1024) (by omega)]
        dsimp only
        rw [if_pos (by simp only [Bool.and_eq_true, decide_eq_true_eq]; omega)]
        have harith : 65536 + (55296 + (c.toNat - 65536) / 1024 - 55296) * 1024 +
            (56320 + (c.toNat - 65536) % 1024 - 56320) = c.toNat := by omega
        rw [harith, Char.ofNat_toNat]
      · rename_i hne
        exact absurd rfl (hne (hexDig ((56320 + (Char.toNat c - 65536) % 1024) / 4096 % 16))
          (hexDig ((56320 + (Char.toNat c - 65536) % 1024) / 256 % 16))
          (hexDig ((56320 + (Char.toNat c - 65536) % 1024) / 16 % 16))
          (hexDig ((56320 + (Char.toNat c - 65536) % 1024) % 16)) rest)
  · rw [if_neg h8]
    simp only [List.nil_append, List.cons_append]
    rw [parseStr_plain acc rest c
      (by intro hc; rw [hc] at h1; exact h1 rfl)
      (by intro hc; rw [hc] at h2; exact h2 rfl)]
    rw [if_neg (by simp only [Bool.or_eq_true, decide_eq_true_eq, not_or] at h8; omega)]


theorem parseStr_quote (acc cs : List Char) :
    parseStr acc ('"' :: cs) = some (String.mk acc.reverse, cs) := by
  rw [parseStr]

theorem parseStr_escStr (s : List Char) (acc rest : List Char) :
    parseStr acc (escStr s ++ '"' :: rest) =
      some (String.mk (acc.reverse ++ s), rest) := by
  induction s generalizing acc with
  | nil => rw [escStr, List.nil_append, parseStr_quote, List.append_nil]
  | cons c cs ih =>
      rw [escStr, List.append_assoc, parseStr_escChar, ih]
      simp [List.reverse_cons, List.append_assoc]

theorem string_eta (s : String) : String.mk s.data = s := rfl

theorem isDig_not_ws (c : Char) (h : isDig c = true) : wsChar c = false := by
  obtain ⟨h1, h2⟩ := isDig_bounds c h
  have e1 : (' ').toNat = 32 := rfl
  have e2 : ('\t').toNat = 9 := rfl
  have e3 : ('\n').toNat = 10 := rfl
  have e4 : ('\r').toNat = 13 := rfl
  simp only [wsChar, beq_eq_false_iff_ne, Bool.or_eq_false_iff]
  exact ⟨⟨⟨char_ne_of_toNat_ne (by omega), char_ne_of_toNat_ne (by omega)⟩,
    char_ne_of_toNat_ne (by omega)⟩, char_ne_of_toNat_ne (by omega)⟩

theorem isDig_ne_rbrk (c : Char) (h : isDig c = true) : (c == ']') = false := by
  obtain ⟨h1, h2⟩ := isDig_bounds c h
  have e1 : (']').toNat = 93 := rfl
  exact beq_eq_false_iff_ne.mpr (char_ne_of_toNat_ne (by omega))

theorem dumpV_head (j : Json) :
    ∃ c t, dumpV j = c :: t ∧ wsChar c = false ∧ (c == ']') = false := by
  cases j with
  | null => refine ⟨'n', _, rfl, rfl, rfl⟩
  | bool b =>
      cases b with
      | false => refine ⟨'f', _, rfl, rfl, rfl⟩
      | true => refine ⟨'t', _, rfl, rfl, rfl⟩
  | int n =>
      show ∃ c t, intChars n = c :: t ∧ _
      rw [intChars]
      by_cases hneg : n < 0
      · rw [if_pos hneg]
        exact ⟨'-', _, rfl, rfl, rfl⟩
      · rw [if_neg hneg, List.nil_append]
        obtain ⟨c, t, hct, hdig⟩ := natChars_cons n.natAbs
        exact ⟨c, t, hct, isDig_not_ws c hdig, isDig_ne_rbrk c hdig⟩
  | float m e =>
      show ∃ c t, floatChars m e = c :: t ∧ _
      rw [floatChars]
      by_cases hneg : (normF m e).1 < 0
      · rw [if_pos hneg]
        exact ⟨'-', _, rfl, rfl, rfl⟩
      · rw [if_neg hneg, List.nil_append]
        obtain ⟨c, t, hct, hdig⟩ := natChars_cons ((normF m e).1.natAbs / 10 ^ (normF m e).2)
        rw [hct, List.cons_append]
        exact ⟨c, _, rfl, isDig_not_ws c hdig, isDig_ne_rbrk c hdig⟩
  | str s => exact ⟨'"', _, rfl, rfl, rfl⟩
  | arr es => exact ⟨'[', _, rfl, rfl, rfl⟩
  | obj ms => exact ⟨lbrace, _, rfl, rfl, rfl⟩

theorem dumpA_cons_head (x : Json) (xs : List Json) (c : Char) (t : List Char)
    (h : dumpV x = c :: t) : ∃ t2, dumpA (x :: xs) = c :: t2 := by
  cases xs with
  | nil => exact ⟨t, h⟩
  | cons y ys => rw [dumpA, h, List.cons_append]; exact ⟨_, rfl⟩

theorem dumpO_cons_head (p : String × Json) (tail : List (String × Json)) :
    ∃ t, dumpO (p :: tail) = '"' :: t := by
  obtain ⟨k, v⟩ := p
  cases tail with
  | nil => exact ⟨_, rfl⟩
  | cons m r => rw [dumpO, List.cons_append]; exact ⟨_, rfl⟩

theorem dropWhile_all (pre cs : List Char) (hpre : pre.all wsChar = true) :
    (pre ++ cs).dropWhile wsChar = cs.dropWhile wsChar := by
  induction pre with
  | nil => rw [List.nil_append]
  | cons c p ih =>
      rw [List.all_cons, Bool.and_eq_true] at hpre
      rw [List.cons_append, List.dropWhile_cons, if_pos hpre.1, ih hpre.2]

theorem dropWhile_no_ws (c : Char) (cs : List Char) (h : wsChar c = false) :
    (c :: cs).dropWhile wsChar = c :: cs := by
  rw [List.dropWhile_cons, if_neg (by rw [h]; exact Bool.false_ne_true)]

theorem parseV_dropPre (f : Nat) (pre cs : List Char) (hpre : pre.all wsChar = true) :
    parseV (f + 1) (pre ++ cs) = parseV (f + 1) cs := by
  rw [parseV, parseV, dropWhile_all pre cs hpre]

theorem parseEntries_dropPre (f : Nat) (pre cs : List Char)
    (hpre : pre.all wsChar = true) :
    parseEntries (f + 1) (pre ++ cs) = parseEntries (f + 1) cs := by
  rw [parseEntries, parseEntries, dropWhile_all pre cs hpre]

theorem parseV_null (f : Nat) (r : List Char) :
    parseV (f + 1) ('n' :: 'u' :: 'l' :: 'l' :: r) = some (.null, r) := by
  rw [parseV, dropWhile_no_ws 'n' _ rfl]
  rfl

theorem parseV_true (f : Nat) (r : List Char) :
    parseV (f + 1) ('t' :: 'r' :: 'u' :: 'e' :: r) = some (.bool true, r) := by
  rw [parseV, dropWhile_no_ws 't' _ rfl]
  rfl

theorem parseV_false (f : Nat) (r : List Char) :
    parseV (f + 1) ('f' :: 'a' :: 'l' :: 's' :: 'e' :: r) = some (.bool false, r) := by
  rw [parseV, dropWhile_no_ws 'f' _ rfl]
  rfl

theorem parseV_str (f : Nat) (r : List Char) :
    parseV (f + 1) ('"' :: r) = (parseStr [] r).map (fun p => (.str p.1, p.2)) := by
  rw [parseV, dropWhile_no_ws '"' _ rfl]
  rfl

theorem parseV_arr (f : Nat) (r : List Char) :
    parseV (f + 1) ('[' :: r) =
      (match r.dropWhile wsChar with
       | c :: r2 =>
           if c == ']' then some (.arr [], r2)
           else (parseItems f (c :: r2)).map (fun p => (.arr p.1, p.2))
       | [] => none) := by
  rw [parseV, dropWhile_no_ws '[' _ rfl]
  rfl

theorem parseV_obj (f : Nat) (r : List Char) :
    parseV (f + 1) (lbrace :: r) =
      (match r.dropWhile wsChar with
       | c2 :: r2 =>
           if c2 == rbrace then some (.obj [], r2)
           else (parseEntries f (c2 :: r2)).map (fun p => (.obj (dictOf p.1), p.2))
       | [] => none) := by
  rw [parseV, dropWhile_no_ws lbrace _ rfl]
  rfl

theorem natChars_len_pos (n : Nat) : 1 ≤ (natChars n).length := by
  obtain ⟨c, t, hct, -⟩ := natChars_cons n
  rw [hct]
  simp

theorem dumpV_len_pos (j : Json) : 1 ≤ (dumpV j).length := by
  obtain ⟨c, t, hct, -, -⟩ := dumpV_head j
  rw [hct]
  simp

mutual
theorem costV_le (j : Json) : costV j + 1 ≤ 2 * (dumpV j).length := by
  cases j with
  | null => decide
  | bool b => cases b <;> decide
  | int n =>
      have := dumpV_len_pos (.int n)
      simp only [costV]
      omega
  | float m e =>
      have := dumpV_len_pos (.float m e)
      simp only [costV]
      omega
  | str s =>
      have := dumpV_len_pos (.str s)
      simp only [costV]
      omega
  | arr es =>
      have h := costA_le es
      simp only [costV, dumpV, List.length_cons, List.length_append]
      omega
  | obj ms =>
      have h := costO_le ms
      simp only [costV, dumpV, List.length_cons, List.length_append]
      omega
theorem costA_le (es : List Json) : costA es ≤ 2 * (dumpA es).length + 1 := by
  cases es with
  | nil => simp [costA]
  | cons x xs =>
      have hx := costV_le x
      cases xs with
      | nil => simp only [costA, costA.eq_1, dumpA]; omega
      | cons y ys =>
          have hxs := costA_le (y :: ys)
          have e1 : costA (x :: y :: ys) = 1 + max (costV x) (costA (y :: ys)) := rfl
          have e2 : (dumpA (x :: y :: ys)).length
              = (dumpV x).length + 2 + (dumpA (y :: ys)).length := by
            rw [show dumpA (x :: y :: ys)
              = dumpV x ++ ',' :: ' ' :: dumpA (y :: ys) from rfl]
            simp only [List.length_append, List.length_cons]
            omega
          rw [e1, e2]
          omega
theorem costO_le (ms : List (String × Json)) : costO ms ≤ 2 * (dumpO ms).length + 1 := by
  cases ms with
  | nil => simp [costO]
  | cons kv ms2 =>
      obtain ⟨k, v⟩ := kv
      have hv := costV_le v
      cases ms2 with
      | nil => simp only [costO, costO.eq_1, dumpO, List.length_cons, List.length_append]; omega
      | cons m r =>
          have hms := costO_le (m :: r)
          have e1 : costO ((k, v) :: m :: r) = 1 + max (costV v) (costO (m :: r)) := rfl
          have e2 : (dumpO ((k, v) :: m :: r)).length
              = (escStr k.data).length + 4 + (dumpV v).length + 2
                  + (dumpO (m :: r)).length := by
            rw [show dumpO ((k, v) :: m :: r)
              = '"' :: (escStr k.data ++ '"' :: ':' :: ' ' :: dumpV v) ++
                  ',' :: ' ' :: dumpO (m :: r) from rfl]
            simp only [List.length_append, List.length_cons]
            omega
          rw [e1, e2]
          rcases Nat.le_total (costV v) (costO (m :: r)) with hle | hle
          · rw [Nat.max_eq_right hle]; omega
          · rw [Nat.max_eq_left hle]; omega
end

theorem setK_notmem (d : List (String × Json)) (k : String) (v : Json)
    (h : d.all (fun kv => kv.1 != k) = true) : setK d k v = d ++ [(k, v)] := by
  induction d with
  | nil => rfl
  | cons kv rest ih =>
      rw [List.all_cons, Bool.and_eq_true] at h
      have hne : ¬ (kv.1 == k) = true := by
        rw [bne_iff_ne] at h
        simpa using h.1
      rw [setK, if_neg hne, List.cons_append, ih h.2]

theorem dictOf_go (ms acc : List (String × Json))
    (hacc : ∀ kv ∈ ms, acc.all (fun kv2 => kv2.1 != kv.1) = true)
    (hok : keysOK ms = true) :
    ms.foldl (fun d kv => setK d kv.1 kv.2) acc = acc ++ ms := by
  induction ms generalizing acc with
  | nil => rw [List.foldl_nil, List.append_nil]
  | cons kv ms2 ih =>
      obtain ⟨k, v⟩ := kv
      rw [keysOK, Bool.and_eq_true] at hok
      rw [List.foldl_cons, setK_notmem acc k v (hacc (k, v) (List.mem_cons_self _ _)),
        ih (acc ++ [(k, v)]) ?h1 hok.2, List.append_assoc, List.singleton_append]
      case h1 =>
        intro kv2 hkv2
        rw [List.all_append, Bool.and_eq_true]
        refine ⟨hacc kv2 (List.mem_cons_of_mem _ hkv2), ?_⟩
        have hk2 := List.all_eq_true.mp hok.1 kv2 hkv2
        rw [bne_iff_ne] at hk2
        simp only [List.all_cons, List.all_nil, Bool.and_true, bne_iff_ne]
        exact fun he => hk2 he.symm

theorem dictOf_id (ms : List (String × Json)) (hok : keysOK ms = true) :
    dictOf ms = ms := by
  rw [dictOf, dictOf_go ms [] (fun kv _ => rfl) hok, List.nil_append]

theorem normO_keys_all (ms : List (String × Json)) (p : String → Bool) :
    (normO ms).all (fun kv => p kv.1) = ms.all (fun kv => p kv.1) := by
  induction ms with
  | nil => rfl
  | cons kv r ih =>
      obtain ⟨k, v⟩ := kv
      rw [normO, List.all_cons, List.all_cons, ih]

theorem keysOK_normO (ms : List (String × Json)) : keysOK (normO ms) = keysOK ms := by
  induction ms with
  | nil => rfl
  | cons kv r ih =>
      obtain ⟨k, v⟩ := kv
      rw [normO, keysOK, keysOK, ih, normO_keys_all r (fun s => s != k)]

theorem normO_length (ms : List (String × Json)) : (normO ms).length = ms.length := by
  induction ms with
  | nil => rfl
  | cons kv r ih =>
      obtain ⟨k, v⟩ := kv
      rw [normO, List.length_cons, List.length_cons, ih]

theorem intChars_head (n : Int) :
    ∃ c t, intChars n = c :: t ∧ (c = '-' ∨ isDig c = true) := by
  rw [intChars]
  by_cases hneg : n < 0
  · rw [if_pos hneg]; exact ⟨'-', _, rfl, Or.inl rfl⟩
  · rw [if_neg hneg, List.nil_append]
    obtain ⟨c, t, hct, hdig⟩ := natChars_cons n.natAbs
    exact ⟨c, t, hct, Or.inr hdig⟩

theorem floatChars_head (m : Int) (e : Nat) :
    ∃ c t, floatChars m e = c :: t ∧ (c = '-' ∨ isDig c = true) := by
  rw [floatChars]
  by_cases hneg : (normF m e).1 < 0
  · rw [if_pos hneg]; exact ⟨'-', _, rfl, Or.inl rfl⟩
  · rw [if_neg hneg, List.nil_append]
    obtain ⟨c, t, hct, hdig⟩ := natChars_cons ((normF m e).1.natAbs / 10 ^ (normF m e).2)
    rw [hct, List.cons_append]
    exact ⟨c, _, rfl, Or.inr hdig⟩

set_option maxHeartbeats 2000000 in
theorem parseV_num (f : Nat) (c : Char) (r : List Char)
    (h : c = '-' ∨ isDig c = true) :
    parseV (f + 1) (c :: r) = parseNum (c :: r) := by
  have hws : wsChar c = false := by
    rcases h with rfl | h
    · rfl
    · exact isDig_not_ws c h
  rw [parseV, dropWhile_no_ws c r hws]
  split
  · rename_i heq
    rw [List.cons.injEq] at heq
    rw [heq.1] at h
    rcases h with h | h <;> exact absurd h (by decide)
  · rename_i heq
    rw [List.cons.injEq] at heq
    rw [heq.1] at h
    rcases h with h | h <;> exact absurd h (by decide)
  · rename_i heq
    rw [List.cons.injEq] at heq
    rw [heq.1] at h
    rcases h with h | h <;> exact absurd h (by decide)
  · rename_i heq
    rw [List.cons.injEq] at heq
    rw [heq.1] at h
    rcases h with h | h <;> exact absurd h (by decide)
  · rename_i heq
    rw [List.cons.injEq] at heq
    rw [heq.1] at h
    rcases h with h | h <;> exact absurd h (by decide)
  · rename_i c2 r2 heq
    rw [List.cons.injEq] at heq
    obtain ⟨hc2, hr2⟩ := heq
    subst hc2
    subst hr2
    have hlb : ¬ (c == lbrace) = true := by
      have h123 : lbrace.toNat = 123 := rfl
      rcases h with rfl | h
      · decide
      · obtain ⟨hl, hr⟩ := isDig_bounds c h
        simp only [beq_iff_eq]
        exact char_ne_of_toNat_ne (by omega)
    rw [if_neg hlb]
    have hnum : (c == '-' || isDig c) = true := by
      rcases h with rfl | h
      · rfl
      · rw [h, Bool.or_true]
    rw [if_pos hnum]
  · rename_i heq
    exact absurd heq (List.cons_ne_nil c r)

set_option maxHeartbeats 2000000 in
mutual
theorem rt_val (f : Nat) (j : Json) (pre rest : List Char)
    (hpre : pre.all wsChar = true) (hwf : wfV j = true)
    (hb : numBoundary rest = true) (hf : costV j ≤ f) :
    parseV f (pre ++ (dumpV j ++ rest)) = some (normV j, rest) := by
  have hc1 : 1 ≤ costV j := by cases j <;> simp [costV]
  cases f with
  | zero => omega
  | succ f2 =>
      rw [parseV_dropPre f2 pre _ hpre]
      cases j with
      | null => exact parseV_null f2 rest
      | bool b =>
          cases b
          · exact parseV_false f2 rest
          · exact parseV_true f2 rest
      | int n =>
          obtain ⟨c, t, hct, hd⟩ := intChars_head n
          rw [show dumpV (.int n) = intChars n from rfl, hct, List.cons_append,
            parseV_num f2 c _ hd, ← List.cons_append, ← hct]
          exact parseNum_intChars n rest hb
      | float m e =>
          obtain ⟨c, t, hct, hd⟩ := floatChars_head m e
          rw [show dumpV (.float m e) = floatChars m e from rfl, hct, List.cons_append,
            parseV_num f2 c _ hd, ← List.cons_append, ← hct]
          exact parseNum_floatChars m e rest hb
      | str s =>
          rw [show dumpV (.str s) = '"' :: (escStr s.data ++ ['"']) from rfl,
            List.cons_append, parseV_str, List.append_assoc, List.singleton_append,
            parseStr_escStr]
          simp only [Option.map_some', List.reverse_nil, List.nil_append, string_eta]
          rfl
      | arr es =>
          rw [show dumpV (.arr es) = '[' :: (dumpA es ++ [']']) from rfl, List.cons_append,
            parseV_arr]
          cases es with
          | nil =>
              rw [show dumpA ([] : List Json) = [] from rfl, List.nil_append,
                List.singleton_append, dropWhile_no_ws ']' rest rfl]
              rfl
          | cons x xs =>
              obtain ⟨c, t, hct, hws, hrb⟩ := dumpV_head x
              obtain ⟨t2, ht2⟩ := dumpA_cons_head x xs c t hct
              rw [List.append_assoc, List.singleton_append, ht2, List.cons_append,
                dropWhile_no_ws c _ hws]
              split
              · rename_i c2 r2 heq
                rw [List.cons.injEq] at heq
                obtain ⟨hc2, hr2⟩ := heq
                rw [← hc2, ← hr2, if_neg (by rw [hrb]; exact Bool.false_ne_true),
                  ← List.cons_append, ← ht2]
                have hwf2 : (wfA (x :: xs)) = true := hwf
                have hrec := rt_items f2 (x :: xs) [] rest rfl hwf2
                  (List.cons_ne_nil x xs)
                  (by have e : costV (.arr (x :: xs)) = 1 + costA (x :: xs) := rfl
                      rw [e] at hf; omega)
                rw [List.nil_append] at hrec
                rw [hrec, Option.map_some']
                rfl
              · rename_i heq
                exact absurd heq (List.cons_ne_nil _ _)
      | obj ms =>
          rw [show dumpV (.obj ms) = lbrace :: (dumpO ms ++ [rbrace]) from rfl,
            List.cons_append, parseV_obj]
          cases ms with
          | nil =>
              rw [show dumpO ([] : List (String × Json)) = [] from rfl, List.nil_append,
                List.singleton_append, dropWhile_no_ws rbrace rest rfl]
              rfl
          | cons kv ms2 =>
              obtain ⟨t, ht⟩ := dumpO_cons_head kv ms2
              rw [List.append_assoc, List.singleton_append, ht, List.cons_append,
                dropWhile_no_ws '"' _ rfl]
              split
              · rename_i c2 r2 heq
                rw [List.cons.injEq] at heq
                obtain ⟨hc2, hr2⟩ := heq
                rw [← hc2, ← hr2, if_neg (by decide), ← List.cons_append, ← ht]
                have hwf2 : (keysOK (kv :: ms2) && wfO (kv :: ms2)) = true := hwf
                rw [Bool.and_eq_true] at hwf2
                have hrec := rt_entries f2 (kv :: ms2) [] rest rfl hwf2.2
                  (List.cons_ne_nil _ _)
                  (by have e : costV (.obj (kv :: ms2)) = 1 + costO (kv :: ms2) := rfl
                      rw [e] at hf; omega)
                rw [List.nil_append] at hrec
                rw [hrec, Option.map_some', dictOf_id _ (by rw [keysOK_normO]; exact hwf2.1)]
                rfl
              · rename_i heq
                exact absurd heq (List.cons_ne_nil _ _)
termination_by f

theorem rt_items (f : Nat) (es : List Json) (pre rest : List Char)
    (hpre : pre.all wsChar = true) (hwf : wfA es = true) (hne : es ≠ [])
    (hf : costA es ≤ f) :
    parseItems f (pre ++ (dumpA es ++ ']' :: rest)) = some (normA es, rest) := by
  cases es with
  | nil => exact absurd rfl hne
  | cons x xs =>
      have hc1 : 1 ≤ costA (x :: xs) := by simp [costA]
      cases f with
      | zero => omega
      | succ f2 =>
          have hwf2 : (wfV x && wfA xs) = true := hwf
          rw [Bool.and_eq_true] at hwf2
          rw [parseItems]
          cases xs with
          | nil =>
              have hcx : costV x ≤ f2 := by
                have e : costA [x] = 1 + max (costV x) 0 := rfl
                rw [e, Nat.max_zero] at hf; omega
              rw [show dumpA [x] = dumpV x from rfl]
              rw [rt_val f2 x pre (']' :: rest) hpre hwf2.1 rfl hcx]
              dsimp only
              rw [dropWhile_no_ws ']' rest rfl]
              rfl
          | cons y ys =>
              have hcx : costV x ≤ f2 := by
                have e : costA (x :: y :: ys) = 1 + max (costV x) (costA (y :: ys)) := rfl
                rw [e] at hf
                rcases Nat.le_total (costV x) (costA (y :: ys)) with hle | hle
                · rw [Nat.max_eq_right hle] at hf; omega
                · rw [Nat.max_eq_left hle] at hf; omega
              have hcys : costA (y :: ys) ≤ f2 := by
                have e : costA (x :: y :: ys) = 1 + max (costV x) (costA (y :: ys)) := rfl
                rw [e] at hf
                rcases Nat.le_total (costV x) (costA (y :: ys)) with hle | hle
                · rw [Nat.max_eq_right hle] at hf; omega
                · rw [Nat.max_eq_left hle] at hf; omega
              rw [show dumpA (x :: y :: ys) = dumpV x ++ ',' :: ' ' :: dumpA (y :: ys) from rfl,
                List.append_assoc, List.cons_append, List.cons_append]
              rw [rt_val f2 x pre (',' :: ' ' :: (dumpA (y :: ys) ++ ']' :: rest)) hpre
                hwf2.1 rfl hcx]
              dsimp only
              rw [dropWhile_no_ws ',' _ rfl]
              split
              · rename_i r2 heq
                rw [List.cons.injEq] at heq
                obtain ⟨-, hr2⟩ := heq
                rw [← hr2]
                have hrec := rt_items f2 (y :: ys) [' '] rest rfl hwf2.2
                  (List.cons_ne_nil _ _) hcys
                rw [List.singleton_append] at hrec
                rw [hrec, Option.map_some']
                rfl
              · rename_i heq
                rw [List.cons.injEq] at heq
                exact absurd heq.1 (by decide)
              · rename_i x hne1 hne2
                exact absurd rfl (hne1 (' ' :: (dumpA (y :: ys) ++ ']' :: rest)))
termination_by f

theorem rt_entries (f : Nat) (ms : List (String × Json)) (pre rest : List Char)
    (hpre : pre.all wsChar = true) (hwf : wfO ms = true) (hne : ms ≠ [])
    (hf : costO ms ≤ f) :
    parseEntries f (pre ++ (dumpO ms ++ rbrace :: rest)) = some (normO ms, rest) := by
  cases ms with
  | nil => exact absurd rfl hne
  | cons kv ms2 =>
      obtain ⟨k, v⟩ := kv
      have hc1 : 1 ≤ costO ((k, v) :: ms2) := by simp [costO]
      cases f with
      | zero => omega
      | succ f2 =>
          have hwf2 : (wfV v && wfO ms2) = true := hwf
          rw [Bool.and_eq_true] at hwf2
          rw [parseEntries_dropPre f2 pre _ hpre]
          have hcv : costV v ≤ f2 := by
            have e : costO ((k, v) :: ms2) = 1 + max (costV v) (costO ms2) := by
              cases ms2 <;> rfl
            rw [e] at hf
            rcases Nat.le_total (costV v) (costO ms2) with hle | hle
            · rw [Nat.max_eq_right hle] at hf
              have := Nat.le_max_left (costV v) (costO ms2)
              rw [Nat.max_eq_right hle] at this
              omega
            · rw [Nat.max_eq_left hle] at hf; omega
          have hcms : costO ms2 ≤ f2 := by
            have e : costO ((k, v) :: ms2) = 1 + max (costV v) (costO ms2) := by
              cases ms2 <;> rfl
            rw [e] at hf
            rcases Nat.le_total (costV v) (costO ms2) with hle | hle
            · rw [Nat.max_eq_right hle] at hf; omega
            · rw [Nat.max_eq_left hle] at hf; omega
          cases ms2 with
          | nil =>
              rw [show dumpO [(k, v)]
                  = '"' :: (escStr k.data ++ '"' :: ':' :: ' ' :: dumpV v) from rfl,
                List.cons_append, parseEntries, dropWhile_no_ws '"' _ rfl]
              split
              · rename_i r heq
                rw [List.cons.injEq] at heq
                obtain ⟨-, hr⟩ := heq
                rw [← hr, List.append_assoc, List.cons_append, List.cons_append,
                  List.cons_append, parseStr_escStr]
                dsimp only
                rw [List.reverse_nil, List.nil_append, string_eta,
                  dropWhile_no_ws ':' _ rfl]
                split
                · rename_i r2 heq2
                  rw [List.cons.injEq] at heq2
                  obtain ⟨-, hr2⟩ := heq2
                  rw [← hr2]
                  have hv := rt_val f2 v [' '] (rbrace :: rest) rfl hwf2.1 rfl hcv
                  rw [List.singleton_append] at hv
                  rw [hv]
                  dsimp only
                  rw [dropWhile_no_ws rbrace rest rfl]
                  rfl
                · rename_i x hne1
                  exact absurd rfl (hne1 (' ' :: (dumpV v ++ rbrace :: rest)))
              · rename_i x hne1
                exact absurd rfl
                  (hne1 (escStr k.data ++ '"' :: ':' :: ' ' :: dumpV v ++ rbrace :: rest))
          | cons m r2 =>
              rw [show dumpO ((k, v) :: m :: r2)
                  = '"' :: (escStr k.data ++ '"' :: ':' :: ' ' :: dumpV v) ++
                      ',' :: ' ' :: dumpO (m :: r2) from rfl]
              rw [List.append_assoc, List.cons_append, parseEntries,
                dropWhile_no_ws '"' _ rfl]
              split
              · rename_i r heq
                rw [List.cons.injEq] at heq
                obtain ⟨-, hr⟩ := heq
                rw [← hr, List.append_assoc, List.cons_append, List.cons_append,
                  List.cons_append, parseStr_escStr]
                dsimp only
                rw [List.reverse_nil, List.nil_append, string_eta,
                  dropWhile_no_ws ':' _ rfl]
                split
                · rename_i r3 heq2
                  rw [List.cons.injEq] at heq2
                  obtain ⟨-, hr3⟩ := heq2
                  rw [← hr3]
                  have hv := rt_val f2 v [' ']
                    (',' :: ' ' :: (dumpO (m :: r2) ++ rbrace :: rest)) rfl hwf2.1 rfl hcv
                  rw [List.singleton_append] at hv
                  rw [List.cons_append, List.cons_append, hv]
                  dsimp only
                  rw [dropWhile_no_ws ',' _ rfl]
                  split
                  · rename_i r4 heq3
                    rw [List.cons.injEq] at heq3
                    obtain ⟨-, hr4⟩ := heq3
                    rw [← hr4]
                    have hrec := rt_entries f2 (m :: r2) [' '] rest rfl hwf2.2
                      (List.cons_ne_nil _ _) hcms
                    rw [List.singleton_append] at hrec
                    rw [hrec, Option.map_some']
                    rfl
                  · rename_i c4 r4 hno heq3
                    rw [List.cons.injEq] at heq3
                    exact absurd heq3.1.symm hno
                  · rename_i b1 heq3
                    exact absurd heq3 (List.cons_ne_nil _ _)
                · rename_i x hne1
                  exact absurd rfl
                    (hne1 (' ' :: (dumpV v ++ (',' :: ' ' :: dumpO (m :: r2) ++ rbrace :: rest))))
              · rename_i x hne1
                exact absurd rfl
                  (hne1 (escStr k.data ++ '"' :: ':' :: ' ' :: dumpV v ++
                    (',' :: ' ' :: dumpO (m :: r2) ++ rbrace :: rest)))
termination_by f
end

theorem loads_dumps (j : Json) (hwf : wfV j = true) : loads (dumps j) = some (normV j) := by
  rw [loads]
  have hdata : (dumps j).data = dumpV j := rfl
  rw [hdata]
  have hc := costV_le j
  have hrt := rt_val (2 * (dumpV j).length + 2) j [] [] rfl hwf rfl (by omega)
  rw [List.nil_append, List.append_nil] at hrt
  rw [hrt]
  rfl

theorem eqO_cons_skip (k : String) (w : Json) (ys ms : List (String × Json))
    (h : ms.all (fun kv => kv.1 != k) = true) :
    eqO ms ((k, w) :: ys) = eqO ms ys := by
  induction ms with
  | nil => simp [eqO]
  | cons kv ms2 ih =>
      obtain ⟨k2, v2⟩ := kv
      rw [List.all_cons, Bool.and_eq_true] at h
      have hk : (k == k2) = false := by
        rw [bne_iff_ne] at h
        have := h.1
        simp only [beq_eq_false_iff_ne]
        exact fun he => this he.symm
      rw [eqO, eqO, ih h.2, eqFind, if_neg (by rw [hk]; exact Bool.false_ne_true)]

mutual
theorem eqV_norm : ∀ (j : Json), wfV j = true → eqV j (normV j) = true
  | .null, _ => by simp [normV, eqV]
  | .bool b, _ => by simp [normV, eqV, pyNum?]
  | .int n, _ => by simp [normV, eqV, pyNum?]
  | .float m e, _ => by simp [normV, eqV, pyNum?, decVal_normF]
  | .str s, _ => by simp [normV, eqV]
  | .arr es, hwf => by
      have h : wfA es = true := hwf
      simp only [normV, eqV]
      exact eqA_norm es h
  | .obj ms, hwf => by
      have h : (keysOK ms && wfO ms) = true := hwf
      rw [Bool.and_eq_true] at h
      simp only [normV, eqV, Bool.and_eq_true]
      exact ⟨by rw [normO_length]; exact beq_self_eq_true _, eqO_norm ms h.1 h.2⟩
theorem eqA_norm : ∀ (es : List Json), wfA es = true → eqA es (normA es) = true
  | [], _ => by simp [eqA, normA]
  | x :: xs, hwf => by
      have h : (wfV x && wfA xs) = true := hwf
      rw [Bool.and_eq_true] at h
      rw [normA, eqA, Bool.and_eq_true]
      exact ⟨eqV_norm x h.1, eqA_norm xs h.2⟩
theorem eqO_norm : ∀ (ms : List (String × Json)), keysOK ms = true → wfO ms = true →
    eqO ms (normO ms) = true
  | [], _, _ => by simp [eqO, normO]
  | (k, v) :: ms2, hok, hwf => by
      have h : (wfV v && wfO ms2) = true := hwf
      rw [Bool.and_eq_true] at h
      have hk : (ms2.all (fun kv => kv.1 != k) && keysOK ms2) = true := hok
      rw [Bool.and_eq_true] at hk
      rw [normO, eqO, Bool.and_eq_true]
      refine ⟨?_, ?_⟩
      · rw [eqFind, if_pos (beq_self_eq_true k)]
        exact eqV_norm v h.1
      · rw [eqO_cons_skip k (normV v) (normO ms2) ms2 hk.1]
        exact eqO_norm ms2 hk.2 h.2
end

/-- **C8.**  Round-trip losslessness of the wire encoding: for every packet
`Dispatcher.aggregate` produces, serialising it as `broadcast` does
(`json.dumps`, m1 line 229) and handing the datagram to the receiver's
`receive_packet` (`json.loads`, m4 line 63) succeeds and returns a value that
is Python-`==`-equal to the original snapshot in every field (`eqV`); the
parsed value is the packet itself up to the float representation normal form
(`normV`), which denotes the same rational in every numeric field
(`decVal_normF`).  The hypothesis `wfV pkt` is the Python dict representation
invariant (each object layer holds each key once), which every dict built by
the Python runtime satisfies; key sets here come from the model's inputs
(node ids, `get_system_health()`), so it is stated as an assumption. -/
theorem packet_roundtrip (d : Dispatcher) (ins : List NodeInput)
    (timestamp : String) (nowTs : ℚ) (health : Json) (pkt : Json) (d2 : Dispatcher)
    (hagg : d.aggregate ins timestamp nowTs health = .ok (pkt, d2))
    (hwf : wfV pkt = true) :
    receive_packet (some (dumps pkt)) = some (normV pkt) ∧
      eqV pkt (normV pkt) = true := by
  refine ⟨?_, eqV_norm pkt hwf⟩
  rw [show receive_packet (some (dumps pkt)) = loads (dumps pkt) from rfl]
  exact loads_dumps pkt hwf

/-- **C8, witness.**  The round-trip theorem applied to the packet of a
concrete aggregation cycle (no configured nodes, empty health dict). -/
theorem packet_roundtrip_witness :
    ∃ pkt d2,
      (Dispatcher.mk [] [] 0).aggregate [] "t" 0 (.obj []) = .ok (pkt, d2) ∧
        wfV pkt = true ∧
        receive_packet (some (dumps pkt)) = some (normV pkt) ∧
          eqV pkt (normV pkt) = true := by
  refine ⟨_, _, rfl, ?_,
    packet_roundtrip (Dispatcher.mk [] [] 0) [] "t" 0 (.obj []) _ _ rfl ?_⟩ <;>
    simp [Dispatcher.aggregate, aggLoop, buildPacket, lastTen, wfV, wfA, wfO, keysOK]

end Cauldron
